import Mathlib

/-!
Verification of the markovpy library: a shallow embedding of `chain.py` and the
`algorithms` package (`analysis.py`, `reachability.py`, `simulation.py`,
`states.py`), with theorems checking the specification's claims against it.

Modelling conventions:
* Python numbers (int/float) are modelled as exact rationals `ℚ`.
* The value stored under the `"p"` key of a transition-attribute dict is
  modelled by `PVal`: a number, Python `None`, or any other non-numeric value.
  Extra attribute keys besides `"p"` are never read by any of the functions
  modelled here, so the attribute dict is projected to its `"p"` field.
* Python dicts are modelled as insertion-ordered association lists: writing an
  existing key updates it in place, a fresh key is appended at the end.
* Fallible code returns `Except PyErr`, with `PyErr` naming the Python
  exception class raised.
-/

namespace Markovpy

/-- The value stored under the `"p"` key of a transition attribute dict:
a Python number (int or float, modelled as `ℚ`), Python `None`, or some other
non-numeric object. -/
inductive PVal where
  | num (q : ℚ)
  | pyNone
  | nonNum
deriving DecidableEq, Repr

/-- The Python exception classes raised by the modelled code. -/
inductive PyErr where
  | keyError
  | typeError
  | valueError
  | indexError
deriving DecidableEq, Repr

/-- Lookup in an insertion-ordered association list (Python `d[k]` / `d.get(k)`);
keys are unique in any list arising from a real Python dict, so first match
equals the dict entry. -/
def alistGet {κ β : Type} [DecidableEq κ] : List (κ × β) → κ → Option β
  | [], _ => Option.none
  | (k', b) :: t, k => if k' = k then some b else alistGet t k

/-- Write to an insertion-ordered association list (Python `d[k] = b`): an
existing key keeps its position, a fresh key is appended at the end. -/
def alistSet {κ β : Type} [DecidableEq κ] : List (κ × β) → κ → β → List (κ × β)
  | [], k, b => [(k, b)]
  | (k', b') :: t, k, b => if k' = k then (k, b) :: t else (k', b') :: alistSet t k b

theorem alistGet_alistSet_self {κ β : Type} [DecidableEq κ] (l : List (κ × β)) (k : κ) (b : β) :
    alistGet (alistSet l k b) k = some b := by
  induction l with
  | nil => simp [alistGet, alistSet]
  | cons hd t ih =>
    obtain ⟨k', b'⟩ := hd
    by_cases h : k' = k <;> simp [alistGet, alistSet, h, ih]

theorem alistGet_alistSet_ne {κ β : Type} [DecidableEq κ] (l : List (κ × β)) (k k' : κ) (b : β)
    (h : k' ≠ k) : alistGet (alistSet l k b) k' = alistGet l k' := by
  induction l with
  | nil => simp [alistGet, alistSet, Ne.symm h]
  | cons hd t ih =>
    obtain ⟨k0, b0⟩ := hd
    by_cases h0 : k0 = k
    · subst h0
      simp [alistGet, alistSet, Ne.symm h]
    · by_cases h1 : k0 = k' <;> simp [alistGet, alistSet, h0, h1, h, ih]

theorem alistGet_append {κ β : Type} [DecidableEq κ] (l₁ l₂ : List (κ × β)) (k : κ) :
    alistGet (l₁ ++ l₂) k =
      match alistGet l₁ k with
      | some b => some b
      | Option.none => alistGet l₂ k := by
  induction l₁ with
  | nil => simp [alistGet]
  | cons hd t ih =>
    obtain ⟨k', b'⟩ := hd
    by_cases h : k' = k <;> simp [alistGet, h, ih]

theorem alistGet_eq_none_of_not_mem {κ β : Type} [DecidableEq κ] (l : List (κ × β)) (k : κ)
    (h : k ∉ l.map Prod.fst) : alistGet l k = Option.none := by
  induction l with
  | nil => rfl
  | cons hd t ih =>
    obtain ⟨k', b'⟩ := hd
    simp only [List.map_cons, List.mem_cons] at h
    push_neg at h
    simp [alistGet, Ne.symm h.1, ih h.2]

theorem alistGet_isSome_of_mem {κ β : Type} [DecidableEq κ] (l : List (κ × β)) (k : κ)
    (h : k ∈ l.map Prod.fst) : (alistGet l k).isSome := by
  induction l with
  | nil => simp at h
  | cons hd t ih =>
    obtain ⟨k', b'⟩ := hd
    by_cases hk : k' = k
    · simp [alistGet, hk]
    · simp only [List.map_cons, List.mem_cons] at h
      rcases h with h | h
      · exact absurd h.symm hk
      · simp [alistGet, hk, ih h]

theorem alistGet_mem_keys {κ β : Type} [DecidableEq κ] (l : List (κ × β)) (k : κ) (b : β)
    (h : alistGet l k = some b) : k ∈ l.map Prod.fst := by
  induction l with
  | nil => simp [alistGet] at h
  | cons hd t ih =>
    obtain ⟨k', b'⟩ := hd
    by_cases hk : k' = k
    · simp [hk]
    · simp only [alistGet, hk, if_false] at h
      simp [ih h]

/-- In a list with unique keys (as in every real Python dict), each entry is
what lookup returns for its key. -/
theorem alistGet_of_mem_nodup {κ β : Type} [DecidableEq κ] (l : List (κ × β))
    (hnd : (l.map Prod.fst).Nodup) (k : κ) (b : β) (h : (k, b) ∈ l) :
    alistGet l k = some b := by
  induction l with
  | nil => simp at h
  | cons hd t ih =>
    obtain ⟨k', b'⟩ := hd
    simp only [List.map_cons, List.nodup_cons] at hnd
    rcases List.mem_cons.mp h with h | h
    · obtain ⟨h1, h2⟩ := Prod.mk.injEq .. ▸ h.symm
      simp [alistGet, h1.symm, h2]
    · have hk : k' ≠ k := by
        intro he
        exact hnd.1 (he ▸ (List.mem_map.mpr ⟨(k, b), h, rfl⟩))
      simp [alistGet, hk, ih hnd.2 h]

/-- A successful lookup returns a member of the list (the first entry with that
key). -/
theorem mem_of_alistGet {κ β : Type} [DecidableEq κ] (l : List (κ × β)) (k : κ) (b : β)
    (h : alistGet l k = some b) : (k, b) ∈ l := by
  induction l with
  | nil => simp [alistGet] at h
  | cons hd t ih =>
    obtain ⟨k', b'⟩ := hd
    by_cases hk : k' = k
    · subst hk
      rw [alistGet, if_pos rfl] at h
      cases h
      exact List.mem_cons_self _ _
    · simp only [alistGet, hk, if_false] at h
      exact List.mem_cons_of_mem _ (ih h)

theorem alistSet_keys_of_mem {κ β : Type} [DecidableEq κ] (l : List (κ × β)) (k : κ) (b : β)
    (h : k ∈ l.map Prod.fst) : (alistSet l k b).map Prod.fst = l.map Prod.fst := by
  induction l with
  | nil => simp at h
  | cons hd t ih =>
    obtain ⟨k', b'⟩ := hd
    by_cases hk : k' = k
    · simp [alistSet, hk]
    · simp only [List.map_cons, List.mem_cons] at h
      rcases h with h | h
      · exact absurd h.symm hk
      · simp [alistSet, hk, ih h]

/-- The `Chain` class of `chain.py`.  `states` holds the keys of `self._states`
in insertion order (the state attribute dicts are never read by any function
modelled here); `trans` is `self._trans`, the state → successor → attributes
two-level dict, each level an insertion-ordered association list with the
attribute dict projected to its `"p"` value. -/
structure Chain (α : Type) where
  states : List α
  trans : List (α × List (α × PVal))
deriving DecidableEq, Repr

variable {α : Type} [DecidableEq α]

/-- `Chain()` — the empty chain. -/
def Chain.empty : Chain α := ⟨[], []⟩

/-- `Chain.add_state`: registers `s` (with fresh empty adjacency) if absent;
attribute merging is not modelled since state attributes are never read. -/
def Chain.add_state (c : Chain α) (s : α) : Chain α :=
  if s ∈ c.states then c
  else { states := c.states ++ [s], trans := c.trans ++ [(s, [])] }

/-- `Chain.add_transition`: auto-registers both endpoints, then overwrites the
single transition record for `(u, v)` with the given `p`. -/
def Chain.add_transition (c : Chain α) (u v : α) (p : PVal) : Chain α :=
  let c1 := (c.add_state u).add_state v
  { c1 with trans := alistSet c1.trans u (alistSet ((alistGet c1.trans u).getD []) v p) }

/-- `Chain.successors`: `self._trans[u].keys()`; raises `KeyError` when `u` has
no entry in `_trans` (i.e. is not a known state). -/
def Chain.successors (c : Chain α) (u : α) : Except PyErr (List α) :=
  match alistGet c.trans u with
  | Option.none => .error .keyError
  | some nbrs => .ok (nbrs.map Prod.fst)

/-- `Chain.has_state`: `s in self._states`. -/
def Chain.has_state (c : Chain α) (s : α) : Bool := s ∈ c.states

/-- `Chain.has_transition`: `u in self._trans and v in self._trans[u]`. -/
def Chain.has_transition (c : Chain α) (u v : α) : Bool :=
  match alistGet c.trans u with
  | Option.none => false
  | some nbrs => (alistGet nbrs v).isSome

/-- `Chain.transition_mass`: `self._trans[u].get(v, 0.0)["p"]`.  An unknown `u`
raises `KeyError`; a missing edge makes `.get` return the float `0.0`, and
subscripting that float with `["p"]` raises `TypeError` (the docstring instead
promises the value 0). -/
def Chain.transition_mass (c : Chain α) (u v : α) : Except PyErr PVal :=
  match alistGet c.trans u with
  | Option.none => .error .keyError
  | some nbrs =>
    match alistGet nbrs v with
    | Option.none => .error .typeError
    | some p => .ok p

/-- The stored `p` of edge `(u, v)` when it exists (`transition_mass`'s
non-raising paths). -/
def massOpt (c : Chain α) (u v : α) : Option PVal :=
  (alistGet c.trans u).bind (fun nbrs => alistGet nbrs v)

theorem transition_mass_eq_ok (c : Chain α) (u v : α) (p : PVal) :
    c.transition_mass u v = .ok p ↔ massOpt c u v = some p := by
  unfold Chain.transition_mass massOpt
  cases h : alistGet c.trans u with
  | none => simp [h]
  | some nbrs => cases h2 : alistGet nbrs v <;> simp [h, h2]

/-- Well-formedness invariants that every chain built through the Python API
satisfies: `_states` keys are unique, `_trans` has exactly the states as keys
(in the same order), each adjacency dict has unique keys, and every transition
target is a registered state. -/
structure Chain.WF (c : Chain α) : Prop where
  states_nodup : c.states.Nodup
  keys_eq : c.trans.map Prod.fst = c.states
  inner_nodup : ∀ e ∈ c.trans, (e.2.map Prod.fst).Nodup
  targets_mem : ∀ e ∈ c.trans, ∀ f ∈ e.2, f.1 ∈ c.states

/-- Every stored transition weight is an actual number (no `None`, nothing
non-numeric). -/
def numericChain (c : Chain α) : Prop :=
  ∀ e ∈ c.trans, ∀ f ∈ e.2, ∃ q : ℚ, f.2 = PVal.num q

instance (c : Chain α) : Decidable (numericChain c) := by
  unfold numericChain
  have : ∀ p : PVal, Decidable (∃ q : ℚ, p = PVal.num q) := by
    intro p
    cases p with
    | num q => exact isTrue ⟨q, rfl⟩
    | pyNone => exact isFalse (by rintro ⟨q, h⟩; cases h)
    | nonNum => exact isFalse (by rintro ⟨q, h⟩; cases h)
  exact List.decidableBAll _ _

/-- `states.is_absorbing`: `self._trans.get(s, {})`; empty adjacency (including
an unknown state) is absorbing; a single self-loop compares `abs(p - 1.0) < tol`,
which raises `TypeError` when `p` is not a number. -/
def is_absorbing (c : Chain α) (s : α) (tol : ℚ := 1/10^12) : Except PyErr Bool :=
  match (alistGet c.trans s).getD [] with
  | [] => .ok true
  | nbrs =>
    if nbrs.length = 1 then
      match alistGet nbrs s with
      | Option.none => .ok false
      | some (.num q) => .ok (|q - 1| < tol)
      | some _ => .error .typeError
    else .ok false

/-- `states.is_transient`: `not is_absorbing(chain, s)`. -/
def is_transient (c : Chain α) (s : α) : Except PyErr Bool :=
  (is_absorbing c s).map (fun b => !b)

theorem exceptOk_bind {ε A B : Type} (a : A) (f : A → Except ε B) :
    (Except.ok a : Except ε A) >>= f = f a := rfl

theorem exceptMap_ok {ε A B : Type} (f : A → B) (a : A) :
    Except.map f (Except.ok a : Except ε A) = Except.ok (f a) := rfl

/-- Python's `sum(...)` over stored `p` values: a left-to-right fold starting
from the int 0 that raises `TypeError` at the first non-numeric operand (as in
`Chain.is_stochastic` and `Chain.normalise`, which use `attr.get("p", 0)` — the
key `"p"` is always present, so a stored `None` reaches the sum). -/
def pySum : List PVal → Except PyErr ℚ
  | [] => .ok 0
  | .num q :: t => (pySum t).map (fun s => q + s)
  | _ :: _ => .error .typeError

/-- Sum of only the numeric values, skipping the rest (the
`isinstance(p, (int, float))` filter in `states.outgoing_mass`). -/
def numSum : List PVal → ℚ
  | [] => 0
  | .num q :: t => q + numSum t
  | _ :: t => numSum t

theorem pySum_eq_ok_of_numeric (l : List PVal) (h : ∀ p ∈ l, ∃ q : ℚ, p = PVal.num q) :
    pySum l = .ok (numSum l) := by
  induction l with
  | nil => rfl
  | cons hd t ih =>
    obtain ⟨q, rfl⟩ := h hd (List.mem_cons_self _ _)
    rw [pySum, numSum, ih (fun p hp => h p (List.mem_cons_of_mem _ hp))]
    rfl

/-- `states.outgoing_mass`: sum of the numeric `p` values on outgoing edges;
uses `_trans.get(s, {})`, so it never raises. -/
def outgoing_mass (c : Chain α) (s : α) : ℚ :=
  numSum (((alistGet c.trans s).getD []).map Prod.snd)

/-- The loop of `Chain.is_stochastic` over `self._trans.items()`: rows with no
outgoing edges are skipped ("allow absorbing states"), other rows' sums must be
within `tol` of 1. -/
def isStochasticAux (tol : ℚ) : List (α × List (α × PVal)) → Except PyErr Bool
  | [] => .ok true
  | (_, nbrs) :: t =>
    if nbrs = [] then isStochasticAux tol t
    else do
      let total ← pySum (nbrs.map Prod.snd)
      if |total - 1| > tol then .ok false else isStochasticAux tol t

/-- `Chain.is_stochastic` with its default tolerance `1e-12`. -/
def Chain.is_stochastic (c : Chain α) (tol : ℚ := 1/10^12) : Except PyErr Bool :=
  isStochasticAux tol c.trans

/-- Division of a stored `p` by a row total (`self._trans[u][v]["p"] /= total`);
only reached on numeric values, since the row sum has already been computed. -/
def divP : PVal → ℚ → PVal
  | .num q, t => .num (q / t)
  | p, _ => p

/-- One row of `Chain.normalise`: compute the Python sum of the row's `p` values
(raising `TypeError` on non-numeric entries) and divide each entry by it when it
is positive; rows with non-positive totals are left unchanged. -/
def normaliseRow (nbrs : List (α × PVal)) : Except PyErr (List (α × PVal)) := do
  let total ← pySum (nbrs.map Prod.snd)
  if 0 < total then .ok (nbrs.map (fun f => (f.1, divP f.2 total)))
  else .ok nbrs

/-- `Chain.normalise`: rescale each state's outgoing `p` values row by row. -/
def Chain.normalise (c : Chain α) : Except PyErr (Chain α) := do
  let t ← c.trans.mapM (fun e => (normaliseRow e.2).map (fun r => (e.1, r)))
  .ok { c with trans := t }

/-- A chain with the single transition A → B carrying p = 1/2. -/
def chainAB : Chain String := Chain.empty.add_transition "A" "B" (PVal.num (1/2))

theorem chainAB_eq :
    chainAB = ⟨["A", "B"], [("A", [("B", PVal.num (1/2))]), ("B", [])]⟩ := by
  rfl

/-- C3: on the edge (A, B) that exists, `transition_mass` returns the stored `p`;
but for the known state A and absent target C it does not return 0 — it raises
`TypeError`, because `self._trans[u].get(v, 0.0)` produces the float `0.0` and
the subsequent `["p"]` subscript is applied to that float.  This contradicts the
function's own docstring ("If there is no outgoing edge from u to v, returns 0"). -/
theorem transition_mass_absent_edge_raises :
    chainAB.transition_mass "A" "B" = Except.ok (PVal.num (1/2)) ∧
    chainAB.transition_mass "A" "C" = Except.error PyErr.typeError :=
  ⟨rfl, rfl⟩

/-- C10: a state that is not registered in the chain is classified as absorbing by
`is_absorbing` (its `_trans.get(s, {})` defaults to an empty adjacency, and empty
adjacency returns True without touching any weight), hence `is_transient` returns
False for it; `successors`, by contrast, raises `KeyError` on the same state. -/
theorem is_absorbing_unknown_state (c : Chain α) (s : α) (hw : c.WF)
    (h : c.has_state s = false) :
    is_absorbing c s = Except.ok true ∧
    is_transient c s = Except.ok false ∧
    c.successors s = Except.error PyErr.keyError := by
  have hs : s ∉ c.states := by
    simpa [Chain.has_state] using h
  have hk : s ∉ c.trans.map Prod.fst := by
    rw [hw.keys_eq]; exact hs
  have hnone : alistGet c.trans s = Option.none := alistGet_eq_none_of_not_mem _ _ hk
  refine ⟨?_, ?_, ?_⟩
  · simp [is_absorbing, hnone]
  · simp [is_transient, is_absorbing, hnone, Except.map]
  · simp [Chain.successors, hnone]

/-- C10 witness: the concrete state Z is unknown to `chainAB`, and the theorem's
conclusions hold there. -/
theorem is_absorbing_unknown_state_witness :
    is_absorbing chainAB "Z" = Except.ok true ∧
    is_transient chainAB "Z" = Except.ok false ∧
    chainAB.successors "Z" = Except.error PyErr.keyError :=
  is_absorbing_unknown_state chainAB "Z"
    ⟨by decide, by decide, by decide, by decide⟩ (by decide)

theorem isStochasticAux_spec (tol : ℚ) (l : List (α × List (α × PVal)))
    (hn : ∀ e ∈ l, ∀ f ∈ e.2, ∃ q : ℚ, f.2 = PVal.num q) :
    ∃ b, isStochasticAux tol l = .ok b ∧
      (b = true ↔ ∀ e ∈ l, e.2 ≠ [] → |numSum (e.2.map Prod.snd) - 1| ≤ tol) := by
  induction l with
  | nil => exact ⟨true, rfl, by simp⟩
  | cons hd t ih =>
    obtain ⟨u, nbrs⟩ := hd
    obtain ⟨b, hb, hiff⟩ := ih (fun e he => hn e (List.mem_cons_of_mem _ he))
    by_cases hnil : nbrs = []
    · subst hnil
      exact ⟨b, by simpa [isStochasticAux] using hb, by simpa using hiff⟩
    · have hsum : pySum (nbrs.map Prod.snd) = .ok (numSum (nbrs.map Prod.snd)) := by
        refine pySum_eq_ok_of_numeric _ (fun p hp => ?_)
        obtain ⟨f, hf, rfl⟩ := List.mem_map.mp hp
        exact hn (u, nbrs) (List.mem_cons_self _ _) f hf
      by_cases htol : |numSum (nbrs.map Prod.snd) - 1| > tol
      · refine ⟨false, ?_, ?_⟩
        · simp [isStochasticAux, hnil, hsum, exceptOk_bind, htol]
        · refine iff_of_false (by simp) (fun hall => ?_)
          exact absurd (hall (u, nbrs) (List.mem_cons_self _ _) hnil) (not_le.mpr htol)
      · refine ⟨b, ?_, ?_⟩
        · simp [isStochasticAux, hnil, hsum, exceptOk_bind, htol, hb]
        · rw [hiff]
          constructor
          · intro h e he
            rcases List.mem_cons.mp he with rfl | he
            · intro _
              simpa using not_lt.mp htol
            · exact h e he
          · intro h e he
            exact h e (List.mem_cons_of_mem _ he)

/-- C5 (amended): when every stored transition weight is numeric, `is_stochastic`
returns a boolean, true exactly when every state with at least one outgoing edge
has `outgoing_mass` within `1e-12` of 1. -/
theorem is_stochastic_iff_outgoing_mass (c : Chain α) (hw : c.WF) (hn : numericChain c) :
    ∃ b, c.is_stochastic = .ok b ∧
      (b = true ↔ ∀ s ∈ c.states, ∀ nbrs, alistGet c.trans s = some nbrs → nbrs ≠ [] →
        |outgoing_mass c s - 1| ≤ 1/10^12) := by
  obtain ⟨b, hb, hiff⟩ := isStochasticAux_spec (1/10^12) c.trans hn
  refine ⟨b, hb, hiff.trans ?_⟩
  have hkeysnd : (c.trans.map Prod.fst).Nodup := by
    rw [hw.keys_eq]; exact hw.states_nodup
  constructor
  · intro h s _ nbrs hget hne
    have hmem : (s, nbrs) ∈ c.trans := mem_of_alistGet _ _ _ hget
    have := h (s, nbrs) hmem hne
    simpa [outgoing_mass, hget] using this
  · intro h e he hne
    have hget : alistGet c.trans e.1 = some e.2 := by
      obtain ⟨u, nbrs⟩ := e
      exact alistGet_of_mem_nodup _ hkeysnd _ _ he
    have hs : e.1 ∈ c.states := by
      rw [← hw.keys_eq]
      exact List.mem_map.mpr ⟨e, he, rfl⟩
    have := h e.1 hs e.2 hget hne
    simpa [outgoing_mass, hget] using this

/-- A stochastic chain: A → A and A → B each with p = 1/2, B → A with p = 1. -/
def chainSto : Chain String :=
  ((Chain.empty.add_transition "A" "A" (PVal.num (1/2))).add_transition
    "A" "B" (PVal.num (1/2))).add_transition "B" "A" (PVal.num 1)

/-- C5 witness: the amended biconditional instantiated at the concrete chain
`chainSto`, whose hypotheses hold by computation. -/
theorem is_stochastic_iff_outgoing_mass_witness :
    ∃ b, chainSto.is_stochastic = .ok b ∧
      (b = true ↔ ∀ s ∈ chainSto.states, ∀ nbrs, alistGet chainSto.trans s = some nbrs →
        nbrs ≠ [] → |outgoing_mass chainSto s - 1| ≤ 1/10^12) :=
  is_stochastic_iff_outgoing_mass chainSto
    ⟨by decide, by decide, by decide, by decide⟩ (by decide)

/-- A chain whose single transition has `p = None` (pending normalisation). -/
def chainNone : Chain String := Chain.empty.add_transition "A" "B" PVal.pyNone

/-- C5 counterexample: on a chain containing a transition whose `p` is `None`,
`is_stochastic` does not return any boolean — the Python `sum` raises
`TypeError` — even though `outgoing_mass` is well-defined (0) there, so the
claimed biconditional cannot hold for this chain. -/
theorem is_stochastic_none_raises :
    chainNone.is_stochastic = Except.error PyErr.typeError ∧
    (¬ ∃ b, chainNone.is_stochastic = Except.ok b) ∧
    outgoing_mass chainNone "A" = 0 := by
  refine ⟨rfl, ?_, rfl⟩
  rintro ⟨b, hb⟩
  rw [show chainNone.is_stochastic = Except.error PyErr.typeError from rfl] at hb
  cases hb

theorem normaliseRow_ok (nbrs : List (α × PVal)) (t : ℚ)
    (h1 : pySum (nbrs.map Prod.snd) = .ok t) (h2 : 0 < t) :
    normaliseRow nbrs = .ok (nbrs.map (fun f => (f.1, divP f.2 t))) := by
  simp [normaliseRow, h1, exceptOk_bind, h2]

theorem pySum_map_divP (l : List PVal) (s t : ℚ) (h : pySum l = .ok s) :
    pySum (l.map (fun p => divP p t)) = .ok (s / t) := by
  induction l generalizing s with
  | nil =>
    simp only [pySum, Except.ok.injEq] at h
    simp [pySum, ← h, zero_div]
  | cons hd tl ih =>
    cases hd with
    | num q =>
      cases htl : pySum tl with
      | error e => rw [pySum, htl] at h; cases h
      | ok s' =>
        rw [pySum, htl, exceptMap_ok] at h
        obtain rfl : q + s' = s := by cases h; rfl
        rw [List.map_cons]
        show pySum (PVal.num (q / t) :: tl.map (fun p => divP p t)) = _
        rw [pySum, ih s' htl, exceptMap_ok, add_div]
    | pyNone => cases h
    | nonNum => cases h

theorem map_divP_one (l : List PVal) (s : ℚ) (h : pySum l = .ok s) :
    l.map (fun p => divP p 1) = l := by
  induction l generalizing s with
  | nil => rfl
  | cons hd tl ih =>
    cases hd with
    | num q =>
      cases htl : pySum tl with
      | error e => rw [pySum, htl] at h; cases h
      | ok s' =>
        rw [List.map_cons]
        show PVal.num (q / 1) :: tl.map (fun p => divP p 1) = _
        rw [div_one, ih s' htl]
    | pyNone => cases h
    | nonNum => cases h

/-- C6: `normalise` is idempotent on chains in which every row's `p` total is a
positive number: normalising once succeeds, and normalising the result again
returns it unchanged. -/
theorem normalise_idempotent (c : Chain α)
    (h : ∀ e ∈ c.trans, ∃ t : ℚ, pySum (e.2.map Prod.snd) = .ok t ∧ 0 < t) :
    ∃ c₁, c.normalise = .ok c₁ ∧ c₁.normalise = .ok c₁ := by
  have main : ∀ l : List (α × List (α × PVal)),
      (∀ e ∈ l, ∃ t : ℚ, pySum (e.2.map Prod.snd) = .ok t ∧ 0 < t) →
      ∃ l₁, l.mapM (fun e => (normaliseRow e.2).map (fun r => (e.1, r))) = .ok l₁ ∧
        l₁.mapM (fun e => (normaliseRow e.2).map (fun r => (e.1, r))) = .ok l₁ := by
    intro l hl
    induction l with
    | nil => exact ⟨[], rfl, rfl⟩
    | cons hd tl ih =>
      obtain ⟨u, nbrs⟩ := hd
      obtain ⟨t, hsum, hpos⟩ := hl (u, nbrs) (List.mem_cons_self _ _)
      obtain ⟨l₁, h1, h2⟩ := ih (fun e he => hl e (List.mem_cons_of_mem _ he))
      have hrow := normaliseRow_ok nbrs t hsum hpos
      have hsnd : (nbrs.map (fun f => (f.1, divP f.2 t))).map Prod.snd =
          (nbrs.map Prod.snd).map (fun p => divP p t) := by
        simp [List.map_map]
      have hsum2 : pySum ((nbrs.map (fun f => (f.1, divP f.2 t))).map Prod.snd) = .ok 1 := by
        rw [hsnd, pySum_map_divP (nbrs.map Prod.snd) t t hsum, div_self (ne_of_gt hpos)]
      have hrow2 : normaliseRow (nbrs.map (fun f => (f.1, divP f.2 t))) =
          .ok (nbrs.map (fun f => (f.1, divP f.2 t))) := by
        rw [normaliseRow, hsum2, exceptOk_bind,
          if_pos (by norm_num : (0:ℚ) < (1:ℚ))]
        have : (nbrs.map (fun f => (f.1, divP f.2 t))).map
            (fun f => (f.1, divP f.2 1)) = nbrs.map (fun f => (f.1, divP f.2 t)) := by
          have := map_divP_one ((nbrs.map Prod.snd).map (fun p => divP p t)) (t / t)
            (pySum_map_divP (nbrs.map Prod.snd) t t hsum)
          rw [List.map_map] at this ⊢
          refine List.map_congr_left (fun f hf => ?_)
          have hmem : divP f.2 t ∈ (nbrs.map Prod.snd).map (fun p => divP p t) :=
            List.mem_map.mpr ⟨f.2, List.mem_map.mpr ⟨f, hf, rfl⟩, rfl⟩
          have hfix := congrArg (fun ll => ll) this
          have : divP (divP f.2 t) 1 = divP f.2 t := by
            rcases List.mem_map.mp hmem with ⟨p, hp, hpe⟩
            cases hq : divP f.2 t with
            | num q => simp [divP, div_one]
            | pyNone => simp [divP]
            | nonNum => simp [divP]
          simpa using this
        rw [this]
      refine ⟨(u, nbrs.map (fun f => (f.1, divP f.2 t))) :: l₁, ?_, ?_⟩
      · rw [List.mapM_cons, hrow, h1]
        rfl
      · rw [List.mapM_cons, hrow2, h2]
        rfl
  obtain ⟨l₁, h1, h2⟩ := main c.trans h
  refine ⟨⟨c.states, l₁⟩, ?_, ?_⟩
  · simp only [Chain.normalise, h1, exceptOk_bind]
  · simp only [Chain.normalise, h2, exceptOk_bind]

/-- C6 witness: the theorem applied to the concrete chain `chainSto`, whose rows
all have positive numeric totals. -/
theorem normalise_idempotent_witness :
    ∃ c₁, chainSto.normalise = .ok c₁ ∧ c₁.normalise = .ok c₁ :=
  normalise_idempotent chainSto (by
    intro e he
    fin_cases he
    · exact ⟨1, by norm_num [pySum, Except.map], by norm_num⟩
    · exact ⟨1, by norm_num [pySum, Except.map], by norm_num⟩)

/-- The numeric content of a stored weight (non-numbers read as 0; all chains
fed to the numeric routines carry numbers only). -/
def pvalToQ : PVal → ℚ
  | .num q => q
  | _ => 0

/-- `Chain.to_adjacency_matrix(dense=True)` with the default (natural insertion)
state order, as an index-based matrix: entry `(i, j)` is the stored weight of
the edge between the i-th and j-th states, and the `0.0` fill where no edge
exists (indices at or beyond the state count read as 0 and are never used). -/
def denseAdj (c : Chain α) (i j : ℕ) : ℚ :=
  match c.states.get? i, c.states.get? j with
  | some u, some v => pvalToQ ((massOpt c u v).getD (PVal.num 0))
  | _, _ => 0

/-- The coefficient matrix built by `analysis.expected_hitting_times`: the target
row is replaced by the identity constraint `A[t,:] = e_t`, every other row `i` is
`e_i - P[i,:]`. -/
def hitA (P : ℕ → ℕ → ℚ) (t i j : ℕ) : ℚ :=
  if i = t then (if j = t then 1 else 0)
  else (if i = j then (1 : ℚ) else 0) - P i j

/-- The right-hand side built by `analysis.expected_hitting_times`: 0 at the
target row, 1 elsewhere. -/
def hitB (t i : ℕ) : ℚ :=
  if i = t then 0 else 1

/-- `h` solves the n×n linear system `A h = b` that `np.linalg.solve` is given;
for a nonsingular system this characterises the unique vector the solver
returns. -/
def hitSolves (n : ℕ) (P : ℕ → ℕ → ℚ) (t : ℕ) (h : ℕ → ℚ) : Prop :=
  ∀ i ∈ Finset.range n, ∑ j ∈ Finset.range n, hitA P t i j * h j = hitB t i

/-- C1: any solution `h` of the linear system that `expected_hitting_times`
builds from the chain's dense adjacency matrix (natural state order) and a
resolved target index `t` satisfies `h[t] = 0` and, for every other index `i`,
`h[i] = 1 + Σ_j P[i,j]·h[j]`. -/
theorem expected_hitting_times_spec (c : Chain α) (t : ℕ)
    (htlt : t < c.states.length) (h : ℕ → ℚ)
    (hsol : hitSolves c.states.length (denseAdj c) t h) :
    h t = 0 ∧ ∀ i ∈ Finset.range c.states.length, i ≠ t →
      h i = 1 + ∑ j ∈ Finset.range c.states.length, denseAdj c i j * h j := by
  have htmem : t ∈ Finset.range c.states.length := Finset.mem_range.mpr htlt
  constructor
  · have ht := hsol t htmem
    simp only [hitA, hitB, if_pos rfl, eq_self_iff_true, if_true, ite_mul,
      one_mul, zero_mul] at ht
    rwa [Finset.sum_ite_eq' (Finset.range c.states.length) t h, if_pos htmem] at ht
  · intro i hmem hi
    have hr := hsol i hmem
    simp only [hitA, hitB, if_neg hi, sub_mul, ite_mul, one_mul, zero_mul,
      Finset.sum_sub_distrib] at hr
    rw [Finset.sum_ite_eq (Finset.range c.states.length) i h, if_pos hmem] at hr
    linarith

/-- The two-state chain with transition matrix [[0.2, 0.8], [0.5, 0.5]]
(the spec's own worked example for hitting times), written out as the structure
the constructor calls below produce. -/
def chainHT : Chain ℕ :=
  ⟨[0, 1], [(0, [(0, PVal.num (1/5)), (1, PVal.num (4/5))]),
            (1, [(0, PVal.num (1/2)), (1, PVal.num (1/2))])]⟩

theorem chainHT_eq_api :
    (((Chain.empty.add_transition 0 0 (PVal.num (1/5))).add_transition
        0 1 (PVal.num (4/5))).add_transition 1 0 (PVal.num (1/2))).add_transition
        1 1 (PVal.num (1/2)) = chainHT := by
  rfl

/-- The hitting-time vector for `chainHT` with target index 0: h = (0, 2). -/
def hitVecHT : ℕ → ℚ :=
  fun i => if i = 0 then 0 else 2

/-- C1 witness: at the concrete chain `chainHT` and target index 0, the vector
(0, 2) solves the constructed system, and the theorem's conclusions hold for it. -/
theorem expected_hitting_times_spec_witness :
    hitVecHT 0 = 0 ∧ ∀ i ∈ Finset.range chainHT.states.length, i ≠ 0 →
      hitVecHT i = 1 + ∑ j ∈ Finset.range chainHT.states.length,
        denseAdj chainHT i j * hitVecHT j :=
  expected_hitting_times_spec chainHT 0 (by norm_num [chainHT]) hitVecHT (by
    intro i hmem
    rw [show chainHT.states.length = 2 from rfl] at hmem ⊢
    rw [Finset.mem_range] at hmem
    interval_cases i <;>
      norm_num [Finset.sum_range_succ, hitA, hitB, hitVecHT, denseAdj, chainHT,
        massOpt, alistGet, pvalToQ])

/-- Row sums of the n×n matrix (`P.sum(axis=1)`). -/
def rowSum (n : ℕ) (P : ℕ → ℕ → ℚ) (i : ℕ) : ℚ := ∑ j ∈ Finset.range n, P i j

/-- The defensive row normalisation at the start of the power method in
`stationary_distribution`: `row_sums[row_sums == 0] = 1; P = P / row_sums` —
each row is divided by its sum, except that a zero row sum is replaced by the
divisor 1 (so a zero row stays a zero row). -/
def powerNormalize (n : ℕ) (P : ℕ → ℕ → ℚ) : ℕ → ℕ → ℚ :=
  fun i j => P i j / (if rowSum n P i = 0 then 1 else rowSum n P i)

/-- One power-method iteration step `pi_next = pi @ P`. -/
def powerStep (n : ℕ) (pi : ℕ → ℚ) (P : ℕ → ℕ → ℚ) : ℕ → ℚ :=
  fun j => ∑ i ∈ Finset.range n, pi i * P i j

/-- A chain with an edge 0 → 1 of weight 1 and no outgoing edges from state 1,
written out as the structure the constructor call below produces. -/
def chainAbs : Chain ℕ := ⟨[0, 1], [(0, [(1, PVal.num 1)]), (1, [])]⟩

theorem chainAbs_eq_api : Chain.empty.add_transition 0 1 (PVal.num 1) = chainAbs := by
  rfl

/-- C2 counterexample: in `chainAbs`, state 1 has no outgoing edges, so row 1 of
the dense matrix sums to zero; after the power method's defensive normalisation
that row is NOT a self-stay row — it is still all zeros (both entries 0, row sum
0 instead of 1) — and one iteration step started from the uniform distribution
drops the total mass from 1 to 1/2, so the state does not keep its probability
mass during iteration. -/
theorem power_method_zero_row_not_self_stay :
    rowSum 2 (denseAdj chainAbs) 1 = 0 ∧
    powerNormalize 2 (denseAdj chainAbs) 1 0 = 0 ∧
    powerNormalize 2 (denseAdj chainAbs) 1 1 = 0 ∧
    rowSum 2 (powerNormalize 2 (denseAdj chainAbs)) 1 ≠ 1 ∧
    (∑ j ∈ Finset.range 2,
      powerStep 2 (fun _ => (1:ℚ)/2) (powerNormalize 2 (denseAdj chainAbs)) j) = 1/2 := by
  refine ⟨?_, ?_, ?_, ?_, ?_⟩ <;>
    norm_num [rowSum, powerNormalize, powerStep, Finset.sum_range_succ, denseAdj,
      chainAbs, massOpt, alistGet, pvalToQ]

/-- C2 (amended): the defensive normalisation divides each row by its sum unless
the sum is zero, in which case the divisor is replaced by 1 and the zero row is
left unchanged (it is not replaced by a self-stay row; its state's mass is lost
during iteration and only restored by the final renormalisation). -/
theorem power_normalize_rows (n : ℕ) (P : ℕ → ℕ → ℚ) (i : ℕ) :
    (rowSum n P i = 0 → ∀ j, powerNormalize n P i j = P i j) ∧
    (rowSum n P i ≠ 0 → rowSum n (powerNormalize n P) i = 1) := by
  constructor
  · intro h0 j
    simp [powerNormalize, h0]
  · intro hne
    have h1 : ∀ j, powerNormalize n P i j = P i j / rowSum n P i :=
      fun j => by rw [powerNormalize, if_neg hne]
    rw [rowSum]
    simp only [h1]
    rw [← Finset.sum_div]
    exact div_self hne

theorem alistSet_keys {κ β : Type} [DecidableEq κ] (l : List (κ × β)) (k : κ) (b : β) :
    (alistSet l k b).map Prod.fst =
      if k ∈ l.map Prod.fst then l.map Prod.fst else l.map Prod.fst ++ [k] := by
  induction l with
  | nil => simp [alistSet]
  | cons hd t ih =>
    obtain ⟨k', b'⟩ := hd
    by_cases hk : k' = k
    · subst hk
      simp [alistSet]
    · by_cases hm : k ∈ t.map Prod.fst <;>
        simp [alistSet, hk, Ne.symm hk, hm, ih]

theorem mem_alistSet {κ β : Type} [DecidableEq κ] (l : List (κ × β)) (k : κ) (b : β)
    (e : κ × β) (h : e ∈ alistSet l k b) : e = (k, b) ∨ e ∈ l := by
  induction l with
  | nil => simpa [alistSet] using h
  | cons hd t ih =>
    obtain ⟨k', b'⟩ := hd
    by_cases hk : k' = k
    · subst hk
      rcases List.mem_cons.mp (by simpa [alistSet] using h) with h | h
      · exact Or.inl h
      · exact Or.inr (List.mem_cons_of_mem _ h)
    · rcases List.mem_cons.mp (by simpa [alistSet, hk] using h) with h | h
      · exact Or.inr (by simp [h])
      · rcases ih h with h | h
        · exact Or.inl h
        · exact Or.inr (List.mem_cons_of_mem _ h)

theorem mem_states_add_state (c : Chain α) (s x : α) :
    x ∈ (c.add_state s).states ↔ x ∈ c.states ∨ x = s := by
  unfold Chain.add_state
  by_cases hs : s ∈ c.states
  · simp only [if_pos hs]
    constructor
    · exact Or.inl
    · rintro (h | rfl)
      · exact h
      · exact hs
  · simp [if_neg hs]

theorem massOpt_add_state (c : Chain α) (s x y : α) :
    massOpt (c.add_state s) x y = massOpt c x y := by
  unfold Chain.add_state massOpt
  by_cases hs : s ∈ c.states
  · simp [if_pos hs]
  · simp only [if_neg hs]
    rw [alistGet_append]
    cases h : alistGet c.trans x with
    | some nbrs => simp
    | none =>
      simp only
      by_cases hx : s = x <;> simp [alistGet, hx]

theorem alistGet_add_transition (c : Chain α) (u v : α) (p : PVal) (x : α) :
    alistGet (c.add_transition u v p).trans x =
      if x = u then
        some (alistSet ((alistGet ((c.add_state u).add_state v).trans u).getD []) v p)
      else alistGet ((c.add_state u).add_state v).trans x := by
  unfold Chain.add_transition
  by_cases hx : x = u
  · subst hx
    simp [alistGet_alistSet_self]
  · simp [hx, alistGet_alistSet_ne _ _ _ _ hx]

theorem massOpt_add_transition (c : Chain α) (u v : α) (p : PVal) (x y : α) :
    massOpt (c.add_transition u v p) x y =
      if x = u ∧ y = v then some p else massOpt c x y := by
  have hm : ∀ a b, massOpt ((c.add_state u).add_state v) a b = massOpt c a b :=
    fun a b => by rw [massOpt_add_state, massOpt_add_state]
  by_cases hx : x = u
  · subst hx
    by_cases hy : y = v
    · subst hy
      have hh : massOpt (c.add_transition x y p) x y = some p := by
        unfold massOpt
        rw [alistGet_add_transition, if_pos rfl, Option.some_bind, alistGet_alistSet_self]
      rw [hh, if_pos ⟨rfl, rfl⟩]
    · have hh : massOpt (c.add_transition x v p) x y
          = massOpt ((c.add_state x).add_state v) x y := by
        unfold massOpt
        rw [alistGet_add_transition, if_pos rfl, Option.some_bind,
          alistGet_alistSet_ne _ _ _ _ hy]
        cases h : alistGet ((c.add_state x).add_state v).trans x with
        | some nbrs => simp [h]
        | none => simp [h, alistGet]
      rw [hh, hm, if_neg (fun hc => hy hc.2)]
  · have hh : massOpt (c.add_transition u v p) x y
        = massOpt ((c.add_state u).add_state v) x y := by
      unfold massOpt
      rw [alistGet_add_transition, if_neg hx]
    rw [hh, hm, if_neg (fun hc => hx hc.1)]

theorem WF_empty : (Chain.empty : Chain α).WF := by
  refine ⟨List.nodup_nil, rfl, ?_, ?_⟩ <;> intro e he <;> simp [Chain.empty] at he

theorem WF_add_state (c : Chain α) (s : α) (hw : c.WF) : (c.add_state s).WF := by
  unfold Chain.add_state
  by_cases hs : s ∈ c.states
  · simpa [if_pos hs] using hw
  · simp only [if_neg hs]
    refine ⟨?_, ?_, ?_, ?_⟩
    · simp [List.nodup_append, hw.states_nodup, hs]
    · simp [hw.keys_eq]
    · intro e he
      rcases List.mem_append.mp he with he | he
      · exact hw.inner_nodup e he
      · simp only [List.mem_singleton] at he
        subst he
        simp
    · intro e he f hf
      rcases List.mem_append.mp he with he | he
      · exact List.mem_append_left _ (hw.targets_mem e he f hf)
      · simp only [List.mem_singleton] at he
        subst he
        simp at hf

theorem WF_add_transition (c : Chain α) (u v : α) (p : PVal) (hw : c.WF) :
    (c.add_transition u v p).WF := by
  have hw1 : ((c.add_state u).add_state v).WF := WF_add_state _ _ (WF_add_state _ _ hw)
  set c1 := (c.add_state u).add_state v with hc1
  have hu : u ∈ c1.states := by
    rw [hc1, mem_states_add_state, mem_states_add_state]
    tauto
  have hv : v ∈ c1.states := by
    rw [hc1, mem_states_add_state]
    tauto
  have huk : u ∈ c1.trans.map Prod.fst := by rw [hw1.keys_eq]; exact hu
  obtain ⟨nbrs, hnbrs⟩ := Option.isSome_iff_exists.mp (alistGet_isSome_of_mem _ _ huk)
  have hinner : (alistGet c1.trans u).getD [] = nbrs := by rw [hnbrs]; rfl
  have hnmem : (u, nbrs) ∈ c1.trans := mem_of_alistGet _ _ _ hnbrs
  unfold Chain.add_transition
  rw [← hc1]
  refine ⟨hw1.states_nodup, ?_, ?_, ?_⟩
  · rw [alistSet_keys, if_pos huk, hw1.keys_eq]
  · intro e he
    rcases mem_alistSet _ _ _ _ he with rfl | he
    · rw [hinner, alistSet_keys]
      have hnd := hw1.inner_nodup _ hnmem
      by_cases hvm : v ∈ nbrs.map Prod.fst
      · simpa [if_pos hvm] using hnd
      · rw [if_neg hvm]
        refine List.Nodup.append hnd (List.nodup_singleton _) ?_
        intro a ha hb
        simp only [List.mem_singleton] at hb
        subst hb
        exact hvm ha
    · exact hw1.inner_nodup e he
  · intro e he f hf
    rcases mem_alistSet _ _ _ _ he with rfl | he
    · rw [hinner] at hf
      rcases mem_alistSet _ _ _ _ hf with rfl | hf
      · exact hv
      · exact hw1.targets_mem _ hnmem f hf
    · exact hw1.targets_mem e he f hf

/-- The fold of `add_transition` over an explicit edge list (the shape of both
`from_adjacency_matrix`'s construction loop and `merge`'s first phase). -/
def addEdges (c : Chain α) (L : List (α × α × PVal)) : Chain α :=
  L.foldl (fun ch e => ch.add_transition e.1 e.2.1 e.2.2) c

theorem WF_addEdges (c : Chain α) (L : List (α × α × PVal)) (hw : c.WF) :
    (addEdges c L).WF := by
  induction L generalizing c with
  | nil => exact hw
  | cons e t ih => exact ih _ (WF_add_transition _ _ _ _ hw)

/-- The `p` written last for the pair `(u, v)` by a list of `add_transition`
calls (dict writes: the last write wins). -/
def lastEdgeP : List (α × α × PVal) → α → α → Option PVal
  | [], _, _ => Option.none
  | e :: L, u, v =>
    match lastEdgeP L u v with
    | some p => some p
    | Option.none => if e.1 = u ∧ e.2.1 = v then some e.2.2 else Option.none

theorem lastEdgeP_append (L₁ L₂ : List (α × α × PVal)) (u v : α) :
    lastEdgeP (L₁ ++ L₂) u v =
      match lastEdgeP L₂ u v with
      | some p => some p
      | Option.none => lastEdgeP L₁ u v := by
  induction L₁ with
  | nil => cases h : lastEdgeP L₂ u v <;> simp [lastEdgeP, h]
  | cons e t ih =>
    rw [List.cons_append, lastEdgeP, ih, lastEdgeP]
    cases h : lastEdgeP L₂ u v <;> cases h2 : lastEdgeP t u v <;> simp [h, h2]

theorem massOpt_addEdges (L : List (α × α × PVal)) (c : Chain α) (u v : α) :
    massOpt (addEdges c L) u v =
      match lastEdgeP L u v with
      | some p => some p
      | Option.none => massOpt c u v := by
  induction L generalizing c with
  | nil => simp [addEdges, lastEdgeP]
  | cons e t ih =>
    have hstep : addEdges c (e :: t) = addEdges (c.add_transition e.1 e.2.1 e.2.2) t := rfl
    rw [hstep, ih, lastEdgeP]
    cases h : lastEdgeP t u v with
    | some p => simp
    | none =>
      simp only
      rw [massOpt_add_transition]
      by_cases he : u = e.1 ∧ v = e.2.1
      · simp [he.1, he.2]
      · have : ¬(e.1 = u ∧ e.2.1 = v) := fun hc => he ⟨hc.1.symm, hc.2.symm⟩
        simp only [if_neg he, if_neg this]

theorem massOpt_empty (u v : α) : massOpt (Chain.empty : Chain α) u v = Option.none := rfl

/-- The inner loop `for j, value in enumerate(row)` of `from_adjacency_matrix`,
here started at column `j`: entries `value <= 0` are skipped (zero entries are
omitted as edges), the rest emit the edge `(i, j, value/total or value)`. -/
def rowEdges (normalise : Bool) (i : ℕ) (total : ℚ) : ℕ → List ℚ → List (ℕ × ℕ × PVal)
  | _, [] => []
  | j, x :: xs =>
    (if x ≤ 0 then [] else [(i, j, PVal.num (if normalise then x / total else x))]) ++
      rowEdges normalise i total (j+1) xs

/-- The outer loop `for i, row in enumerate(matrix)` of `from_adjacency_matrix`,
with `total = sum(row)` computed per row. -/
def matrixEdges (normalise : Bool) : ℕ → List (List ℚ) → List (ℕ × ℕ × PVal)
  | _, [] => []
  | i, row :: rest => rowEdges normalise i row.sum 0 row ++ matrixEdges normalise (i+1) rest

/-- `Chain._validate_matrix` with `states=None`: square, all entries
non-negative, no row summing to zero (each failure raises `ValueError`). -/
def validateMatrix (matrix : List (List ℚ)) : Bool :=
  matrix.all (fun row => row.length == matrix.length) &&
  matrix.all (fun row => row.all (fun x => decide (0 ≤ x)) && !(decide (row.sum = 0)))

/-- `Chain.from_adjacency_matrix` with default labels `0..n-1` (`states=None`):
an empty matrix and validation failures raise `ValueError`; otherwise the edges
with positive entries are added in row-major order via `add_transition`. -/
def Chain.from_adjacency_matrix (matrix : List (List ℚ)) (normalise : Bool := true)
    (validate : Bool := true) : Except PyErr (Chain ℕ) :=
  if matrix.length = 0 then .error .valueError
  else if validate && !validateMatrix matrix then .error .valueError
  else .ok (addEdges Chain.empty (matrixEdges normalise 0 matrix))

/-- What `rowEdges` stores for column `v` (the last — unique — write wins). -/
def rowLook (b : Bool) (tot : ℚ) : ℕ → List ℚ → ℕ → Option PVal
  | _, [], _ => Option.none
  | j, x :: xs, v =>
    match rowLook b tot (j+1) xs v with
    | some p => some p
    | Option.none => if j = v ∧ 0 < x then some (PVal.num (if b then x / tot else x))
                     else Option.none

/-- What `matrixEdges` stores for the pair `(u, v)`. -/
def matLook (b : Bool) : ℕ → List (List ℚ) → ℕ → ℕ → Option PVal
  | _, [], _, _ => Option.none
  | i, row :: rest, u, v =>
    match matLook b (i+1) rest u v with
    | some p => some p
    | Option.none => if u = i then rowLook b row.sum 0 row v else Option.none

theorem lastEdgeP_some_mem (L : List (α × α × PVal)) (u v : α) (p : PVal)
    (h : lastEdgeP L u v = some p) : (u, v, p) ∈ L := by
  induction L with
  | nil => simp [lastEdgeP] at h
  | cons e t ih =>
    rw [lastEdgeP] at h
    cases h2 : lastEdgeP t u v with
    | some q =>
      rw [h2] at h
      cases h
      exact List.mem_cons_of_mem _ (ih h2)
    | none =>
      rw [h2] at h
      simp only at h
      by_cases hc : e.1 = u ∧ e.2.1 = v
      · rw [if_pos hc] at h
        cases h
        obtain ⟨e1, e2, e3⟩ := e
        obtain ⟨rfl, rfl⟩ := hc
        exact List.mem_cons_self _ _
      · rw [if_neg hc] at h
        cases h

theorem lastEdgeP_rowEdges (b : Bool) (i : ℕ) (tot : ℚ) (row : List ℚ) :
    ∀ j0 u v, lastEdgeP (rowEdges b i tot j0 row) u v =
      if u = i then rowLook b tot j0 row v else Option.none := by
  induction row with
  | nil =>
    intro j0 u v
    by_cases hu : u = i <;> simp [rowEdges, lastEdgeP, rowLook, hu]
  | cons x xs ih =>
    intro j0 u v
    rw [rowEdges, lastEdgeP_append, ih (j0+1), rowLook]
    by_cases hu : u = i
    · subst hu
      simp only [if_pos rfl]
      cases h : rowLook b tot (j0+1) xs v with
      | some p => simp
      | none =>
        simp only
        by_cases hc : j0 = v ∧ 0 < x
        · obtain ⟨rfl, hx0⟩ := hc
          have hx : ¬x ≤ 0 := not_le.mpr hx0
          simp [hx, lastEdgeP, hx0]
        · by_cases hx : x ≤ 0
          · simp [hx, lastEdgeP, hc]
          · have hj : ¬j0 = v := fun hh => hc ⟨hh, not_le.mp hx⟩
            simp [hx, lastEdgeP, hj, hc]
    · simp only [if_neg hu]
      by_cases hx : x ≤ 0
      · simp [hx, lastEdgeP]
      · have hiu : ¬(i = u ∧ j0 = v) := fun hc => hu hc.1.symm
        simp [hx, lastEdgeP, hiu]

theorem lastEdgeP_matrixEdges (b : Bool) (rows : List (List ℚ)) :
    ∀ i0 u v, lastEdgeP (matrixEdges b i0 rows) u v = matLook b i0 rows u v := by
  induction rows with
  | nil => intro i0 u v; rfl
  | cons row rest ih =>
    intro i0 u v
    rw [matrixEdges, lastEdgeP_append, ih (i0+1), matLook, lastEdgeP_rowEdges]

theorem rowLook_get (b : Bool) (tot : ℚ) (row : List ℚ) :
    ∀ j0 v, rowLook b tot j0 row v =
      if j0 ≤ v then
        match row.get? (v - j0) with
        | some x => if 0 < x then some (PVal.num (if b then x / tot else x))
                    else Option.none
        | Option.none => Option.none
      else Option.none := by
  induction row with
  | nil =>
    intro j0 v
    by_cases h : j0 ≤ v <;> simp [rowLook, List.get?, h]
  | cons x xs ih =>
    intro j0 v
    rw [rowLook, ih (j0+1)]
    rcases Nat.lt_trichotomy v j0 with hv | rfl | hv
    · have h1 : ¬(j0 + 1 ≤ v) := by omega
      have h2 : ¬(j0 ≤ v) := by omega
      have h3 : ¬(j0 = v ∧ 0 < x) := fun hc => by omega
      simp [h1, h2, h3]
    · have h1 : ¬(v + 1 ≤ v) := by omega
      have h2 : v - v = 0 := by omega
      simp only [if_neg h1, if_pos (le_refl v), h2, List.get?]
      by_cases hx : 0 < x
      · simp [hx]
      · simp [hx]
    · have h1 : j0 + 1 ≤ v := by omega
      have h2 : j0 ≤ v := by omega
      have h3 : v - j0 = (v - (j0 + 1)) + 1 := by omega
      have h4 : ¬(j0 = v ∧ 0 < x) := fun hc => by omega
      rw [if_pos h1, if_pos h2, h3, List.get?]
      cases hg : xs.get? (v - (j0 + 1)) with
      | some y =>
        by_cases hy : 0 < y
        · simp [hy]
        · simp [hy, h4]
      | none => simp [h4]

theorem matLook_get (b : Bool) (rows : List (List ℚ)) :
    ∀ i0 u v, matLook b i0 rows u v =
      if i0 ≤ u then
        match rows.get? (u - i0) with
        | some row => rowLook b row.sum 0 row v
        | Option.none => Option.none
      else Option.none := by
  induction rows with
  | nil =>
    intro i0 u v
    by_cases h : i0 ≤ u <;> simp [matLook, List.get?, h]
  | cons row rest ih =>
    intro i0 u v
    rw [matLook, ih (i0+1)]
    rcases Nat.lt_trichotomy u i0 with hu | rfl | hu
    · have h1 : ¬(i0 + 1 ≤ u) := by omega
      have h2 : ¬(i0 ≤ u) := by omega
      have h3 : u ≠ i0 := by omega
      simp [h1, h2, h3]
    · have h1 : ¬(u + 1 ≤ u) := by omega
      have h2 : u - u = 0 := by omega
      simp [h1, h2, List.get?]
    · have h1 : i0 + 1 ≤ u := by omega
      have h2 : i0 ≤ u := by omega
      have h3 : u - i0 = (u - (i0 + 1)) + 1 := by omega
      have h4 : u ≠ i0 := by omega
      rw [if_pos h1, if_pos h2, h3, List.get?]
      cases hg : rest.get? (u - (i0 + 1)) with
      | some row' =>
        cases hg2 : rowLook b row'.sum 0 row' v <;> simp [hg2, h4]
      | none => simp [h4]

theorem mem_states_add_transition (c : Chain α) (u v : α) (p : PVal) (x : α) :
    x ∈ (c.add_transition u v p).states ↔ x ∈ c.states ∨ x = u ∨ x = v := by
  show x ∈ ((c.add_state u).add_state v).states ↔ _
  rw [mem_states_add_state, mem_states_add_state]
  tauto

theorem mem_states_addEdges (L : List (α × α × PVal)) (c : Chain α) (x : α) :
    x ∈ (addEdges c L).states ↔ x ∈ c.states ∨ ∃ e ∈ L, x = e.1 ∨ x = e.2.1 := by
  induction L generalizing c with
  | nil => simp [addEdges]
  | cons e t ih =>
    have hstep : addEdges c (e :: t) = addEdges (c.add_transition e.1 e.2.1 e.2.2) t := rfl
    rw [hstep, ih, mem_states_add_transition]
    constructor
    · rintro ((h | h | h) | ⟨f, hf, h⟩)
      · exact Or.inl h
      · exact Or.inr ⟨e, List.mem_cons_self _ _, Or.inl h⟩
      · exact Or.inr ⟨e, List.mem_cons_self _ _, Or.inr h⟩
      · exact Or.inr ⟨f, List.mem_cons_of_mem _ hf, h⟩
    · rintro (h | ⟨f, hf, h⟩)
      · exact Or.inl (Or.inl h)
      · rcases List.mem_cons.mp hf with rfl | hf
        · exact Or.inl (Or.inr h)
        · exact Or.inr ⟨f, hf, h⟩

/-- The dict comprehension `{s: i for i, s in enumerate(states)}` of
`to_adjacency_matrix`, looked up at `v` (a duplicated label keeps its last
index); `k` is the index of the first listed state. -/
def stateIndexAux (k : ℕ) : List α → α → Option ℕ
  | [], _ => Option.none
  | s :: t, v =>
    match stateIndexAux (k+1) t v with
    | some j => some j
    | Option.none => if s = v then some k else Option.none

/-- `state_index[v]` of `to_adjacency_matrix`. -/
def state_index (sts : List α) (v : α) : Option ℕ := stateIndexAux 0 sts v

/-- The write loop `for v in self.successors(u): matrix[i][j] = ...` over one
row: each successor's stored `p` is written at its `state_index` column
(`KeyError` when a successor is not among the listed states; the index is
always in range, so the list update never misses). -/
def buildRowAux (sts : List α) : List (α × PVal) → List PVal → Except PyErr (List PVal)
  | [], row => .ok row
  | f :: rest, row =>
    match state_index sts f.1 with
    | Option.none => .error .keyError
    | some j => buildRowAux sts rest (row.set j f.2)

/-- One row of the dense matrix: a `0.0`-filled row of length `len(states)`
populated from the state's successor dict (`KeyError` when the state is
unknown). -/
def toAdjRow (c : Chain α) (sts : List α) (u : α) : Except PyErr (List PVal) :=
  match alistGet c.trans u with
  | Option.none => .error .keyError
  | some nbrs => buildRowAux sts nbrs (List.replicate sts.length (PVal.num 0))

/-- `Chain.to_adjacency_matrix(states, dense=True)`: one row per listed state;
`states=None` defaults to the chain's natural insertion order, which call sites
pass explicitly here. -/
def Chain.to_adjacency_matrix (c : Chain α) (sts : List α) :
    Except PyErr (List (List PVal)) :=
  sts.mapM (toAdjRow c sts)

theorem stateIndexAux_append (l₁ l₂ : List α) (v : α) :
    ∀ k, stateIndexAux k (l₁ ++ l₂) v =
      match stateIndexAux (k + l₁.length) l₂ v with
      | some j => some j
      | Option.none => stateIndexAux k l₁ v := by
  induction l₁ with
  | nil =>
    intro k
    simp only [List.nil_append, List.length_nil, Nat.add_zero]
    cases h : stateIndexAux k l₂ v <;> simp [h, stateIndexAux]
  | cons s t ih =>
    intro k
    rw [List.cons_append, stateIndexAux, ih (k+1), stateIndexAux]
    have hlen : k + 1 + t.length = k + (t.length + 1) := by omega
    rw [hlen]
    cases h : stateIndexAux (k + (t.length + 1)) l₂ v <;>
      cases h2 : stateIndexAux (k+1) t v <;> simp [h, h2]

theorem state_index_range (n : ℕ) (v : ℕ) :
    state_index (List.range n) v = if v < n then some v else Option.none := by
  induction n with
  | zero => simp [state_index, List.range_zero, stateIndexAux]
  | succ n ih =>
    unfold state_index at ih ⊢
    rw [List.range_succ, stateIndexAux_append]
    simp only [Nat.zero_add, List.length_range]
    by_cases hv : v = n
    · subst hv
      simp [stateIndexAux]
    · have hv2 : ¬n = v := fun h => hv h.symm
      have : stateIndexAux n [n] v = Option.none := by
        simp [stateIndexAux, hv2]
      rw [this]
      simp only [ih]
      by_cases h1 : v < n
      · have h2 : v < n + 1 := by omega
        simp [h1, h2]
      · have h2 : ¬(v < n + 1) := by omega
        simp [h1, h2]

theorem buildRowAux_spec (n : ℕ) (nbrs : List (ℕ × PVal))
    (hlt : ∀ f ∈ nbrs, f.1 < n) (hnd : (nbrs.map Prod.fst).Nodup) :
    ∀ row : List PVal, row.length = n →
      ∃ r, buildRowAux (List.range n) nbrs row = .ok r ∧ r.length = n ∧
        ∀ k, r.get? k =
          match alistGet nbrs k with
          | some p => some p
          | Option.none => row.get? k := by
  induction nbrs with
  | nil =>
    intro row hrow
    exact ⟨row, rfl, hrow, fun k => by simp [alistGet]⟩
  | cons f rest ih =>
    intro row hrow
    have hf1 : f.1 < n := hlt f (List.mem_cons_self _ _)
    have hidx : state_index (List.range n) f.1 = some f.1 := by
      rw [state_index_range, if_pos hf1]
    simp only [List.map_cons, List.nodup_cons] at hnd
    obtain ⟨r, hr, hrl, hrk⟩ := ih (fun g hg => hlt g (List.mem_cons_of_mem _ hg))
      hnd.2 (row.set f.1 f.2) (by rw [List.length_set]; exact hrow)
    refine ⟨r, ?_, hrl, ?_⟩
    · obtain ⟨f1, f2⟩ := f
      rw [buildRowAux, hidx]
      exact hr
    · intro k
      rw [hrk k]
      obtain ⟨f1, f2⟩ := f
      by_cases hk : f1 = k
      · subst hk
        have hrest : alistGet rest f1 = Option.none :=
          alistGet_eq_none_of_not_mem _ _ hnd.1
        rw [hrest]
        simp only [alistGet, if_pos rfl]
        rw [List.get?_set_eq_of_lt _ (by rw [hrow]; exact hf1)]
        simp
      · cases hrest : alistGet rest k with
        | some p => simp [alistGet, hk, hrest]
        | none =>
          simp only [alistGet, hk, if_false, hrest]
          rw [List.get?_set_ne _ _ hk]

/-- A row that passes validation (non-negative, nonzero sum) has a positive
entry. -/
theorem exists_pos_entry (row : List ℚ) (hnn : ∀ x ∈ row, 0 ≤ x)
    (hnz : row.sum ≠ 0) : ∃ j x, row.get? j = some x ∧ 0 < x := by
  by_contra hno
  push_neg at hno
  refine hnz (List.sum_eq_zero (fun x hx => ?_))
  obtain ⟨j, hj⟩ := List.get?_of_mem hx
  have := hno j x hj
  have := hnn x hx
  linarith

theorem mapM_ok_of_all {β : Type} (f : ℕ → Except PyErr β) (sts : List ℕ)
    (h : ∀ u ∈ sts, ∃ r, f u = .ok r) :
    ∃ rows, sts.mapM f = .ok rows ∧ rows.length = sts.length ∧
      ∀ k u, sts.get? k = some u → ∃ r, f u = .ok r ∧ rows.get? k = some r := by
  induction sts with
  | nil =>
    refine ⟨[], rfl, rfl, ?_⟩
    intro k u hk
    simp [List.get?] at hk
  | cons s t ih =>
    obtain ⟨r, hr⟩ := h s (List.mem_cons_self _ _)
    obtain ⟨rows, hrows, hlen, hk⟩ := ih (fun u hu => h u (List.mem_cons_of_mem _ hu))
    refine ⟨r :: rows, ?_, by simp [hlen], ?_⟩
    · rw [List.mapM_cons, hr, hrows]
      rfl
    · intro k u hku
      cases k with
      | zero =>
        rw [List.get?] at hku
        cases hku
        exact ⟨r, hr, rfl⟩
      | succ k =>
        rw [List.get?] at hku
        obtain ⟨r', hr', hrow'⟩ := hk k u hku
        exact ⟨r', hr', by simpa [List.get?] using hrow'⟩

/-- What `from_adjacency_matrix`'s construction stores for each ordered pair:
the positive entries of the row-major matrix. -/
theorem massOpt_from_adjacency (M : List (List ℚ)) (b : Bool) (u v : ℕ) :
    massOpt (addEdges Chain.empty (matrixEdges b 0 M)) u v =
      match M.get? u with
      | some row => rowLook b row.sum 0 row v
      | Option.none => Option.none := by
  rw [massOpt_addEdges, lastEdgeP_matrixEdges, matLook_get]
  simp only [Nat.zero_le, if_pos, Nat.sub_zero]
  cases hM : M.get? u with
  | none => simp [massOpt_empty]
  | some row => cases hr : rowLook b row.sum 0 row v <;> simp [hr, massOpt_empty]

/-- C4 (amended): for a square non-negative matrix with no zero row,
`from_adjacency_matrix(M, normalise=False)` succeeds and
`to_adjacency_matrix(dense=True)` with the states in index order `0..n-1`
returns exactly `M`.  (With the chain's default insertion order the output is a
permutation of `M`; see the counterexample for out-of-index-order encounters.) -/
theorem from_to_adjacency_roundtrip (M : List (List ℚ)) (hne : M ≠ [])
    (hsq : ∀ row ∈ M, row.length = M.length)
    (hnn : ∀ row ∈ M, ∀ x ∈ row, 0 ≤ x)
    (hnz : ∀ row ∈ M, row.sum ≠ 0) :
    ∃ c, Chain.from_adjacency_matrix M false true = .ok c ∧
      c.to_adjacency_matrix (List.range M.length) =
        .ok (M.map (fun row => row.map PVal.num)) := by
  have hlen0 : ¬M.length = 0 := fun h => hne (List.length_eq_zero.mp h)
  set n := M.length with hn
  set c := addEdges Chain.empty (matrixEdges false 0 M) with hc
  have hval : validateMatrix M = true := by
    unfold validateMatrix
    rw [Bool.and_eq_true, List.all_eq_true, List.all_eq_true]
    refine ⟨fun row hrow => by simp [hsq row hrow, hn], fun row hrow => ?_⟩
    rw [Bool.and_eq_true, List.all_eq_true]
    exact ⟨fun x hx => by simp [hnn row hrow x hx], by simp [hnz row hrow]⟩
  have hfrom : Chain.from_adjacency_matrix M false true = .ok c := by
    unfold Chain.from_adjacency_matrix
    rw [if_neg hlen0, hval]
    simp
  have hwf : c.WF := WF_addEdges _ _ WF_empty
  have hmass : ∀ u v, massOpt c u v =
      match M.get? u with
      | some row => rowLook false row.sum 0 row v
      | Option.none => Option.none := fun u v => massOpt_from_adjacency M false u v
  -- per-row data for every valid index
  have hperi : ∀ i, i < n → ∀ row, M.get? i = some row →
      ∃ nbrs, alistGet c.trans i = some nbrs ∧
        buildRowAux (List.range n) nbrs (List.replicate (List.range n).length (PVal.num 0))
          = .ok (row.map PVal.num) := by
    intro i hi row hMi
    have hrmem : row ∈ M := List.get?_mem hMi
    have hrlen : row.length = n := hsq row hrmem
    obtain ⟨j, x, hj, hx⟩ := exists_pos_entry row (hnn row hrmem) (hnz row hrmem)
    have hmij : massOpt c i j = some (PVal.num x) := by
      simp only [hmass, hMi]
      rw [rowLook_get, if_pos (Nat.zero_le _), Nat.sub_zero, hj]
      simp [hx]
    have hsome : (alistGet c.trans i).isSome := by
      unfold massOpt at hmij
      cases h : alistGet c.trans i with
      | none => rw [h] at hmij; cases hmij
      | some nbrs => simp
    obtain ⟨nbrs, hnbrs⟩ := Option.isSome_iff_exists.mp hsome
    have hmem : (i, nbrs) ∈ c.trans := mem_of_alistGet _ _ _ hnbrs
    have hinnd : (nbrs.map Prod.fst).Nodup := hwf.inner_nodup _ hmem
    have hmassnb : ∀ k, massOpt c i k = alistGet nbrs k := by
      intro k
      unfold massOpt
      rw [hnbrs]
      rfl
    have htar : ∀ g ∈ nbrs, g.1 < n := by
      intro g hg
      have hget : alistGet nbrs g.1 = some g.2 := alistGet_of_mem_nodup _ hinnd _ _ hg
      have hm : massOpt c i g.1 = some g.2 := by rw [hmassnb, hget]
      simp only [hmass, hMi] at hm
      rw [rowLook_get] at hm
      by_cases hlt : g.1 < row.length
      · rw [hrlen] at hlt
        exact hlt
      · exfalso
        have hnone : row.get? (g.1 - 0) = Option.none :=
          List.get?_eq_none.mpr (by omega)
        rw [if_pos (Nat.zero_le _), hnone] at hm
        cases hm
    obtain ⟨r, hr, hrl, hrk⟩ := buildRowAux_spec n nbrs htar hinnd
      (List.replicate (List.range n).length (PVal.num 0))
      (by simp)
    have hreq : r = row.map PVal.num := by
      rw [List.ext_get?_iff]
      intro k
      rw [hrk k]
      by_cases hk : k < n
      · cases hrow : row.get? k with
        | none =>
          exfalso
          have := List.get?_eq_none.mp hrow
          omega
        | some xk =>
          have hxnn := hnn row hrmem xk (List.get?_mem hrow)
          have halist : alistGet nbrs k =
              if 0 < xk then some (PVal.num xk) else Option.none := by
            have hmk := hmass i k
            rw [hmassnb] at hmk
            simp only [hMi] at hmk
            rw [hmk, rowLook_get, if_pos (Nat.zero_le _), Nat.sub_zero, hrow]
            by_cases hpos : 0 < xk <;> simp [hpos]
          rw [halist]
          by_cases hpos : 0 < xk
          · rw [if_pos hpos, List.get?_map, hrow]
            rfl
          · have hx0 : xk = 0 := le_antisymm (not_lt.mp hpos) hxnn
            rw [if_neg hpos, List.get?_eq_getElem?, List.getElem?_replicate,
              if_pos (by simpa using hk), List.get?_map, hrow, hx0]
            rfl
      · have halist : alistGet nbrs k = Option.none := by
          cases h : alistGet nbrs k with
          | none => rfl
          | some p =>
            exfalso
            have hm : massOpt c i k = some p := by rw [hmassnb, h]
            simp only [hmass, hMi] at hm
            rw [rowLook_get, if_pos (Nat.zero_le _), Nat.sub_zero,
              List.get?_eq_none.mpr (by omega)] at hm
            cases hm
        rw [halist, List.get?_eq_getElem?, List.getElem?_replicate,
          if_neg (by simpa using hk), List.get?_map,
          List.get?_eq_none.mpr (by omega)]
        rfl
    exact ⟨nbrs, hnbrs, by rw [hr, hreq]⟩
  -- assemble the mapM over the listed states 0..n-1
  obtain ⟨rows, hmapM, hrowslen, hrowsk⟩ := mapM_ok_of_all
    (toAdjRow c (List.range n)) (List.range n)
    (by
      intro u hu
      have hu' : u < n := List.mem_range.mp hu
      have hMu : M.get? u = some (M.get ⟨u, hu'⟩) := List.get?_eq_get hu'
      obtain ⟨nbrs, hnbrs, hok⟩ := hperi u hu' _ hMu
      exact ⟨_, by simp only [toAdjRow, hnbrs]; exact hok⟩)
  have hrowseq : rows = M.map (fun row => row.map PVal.num) := by
    rw [List.ext_get?_iff]
    intro k
    by_cases hk : k < n
    · have hMk : M.get? k = some (M.get ⟨k, hk⟩) := List.get?_eq_get hk
      obtain ⟨nbrs, hnbrs, hok⟩ := hperi k hk _ hMk
      obtain ⟨r, hr, hrk⟩ := hrowsk k k (by simpa using List.get?_range hk)
      simp only [toAdjRow, hnbrs] at hr
      rw [hok] at hr
      cases hr
      rw [hrk, List.get?_map, hMk]
      rfl
    · rw [List.get?_eq_none.mpr (by simp at hrowslen ⊢; omega),
        List.get?_eq_none.mpr (by simp; omega)]
  refine ⟨c, hfrom, ?_⟩
  unfold Chain.to_adjacency_matrix
  exact hmapM.trans (by rw [hrowseq])

/-- The spec's worked matrix [[0.2, 0.8], [0.5, 0.5]]. -/
def matHT : List (List ℚ) := [[1/5, 4/5], [1/2, 1/2]]

/-- C4 witness: the amended round-trip at the concrete matrix `matHT`. -/
theorem from_to_adjacency_roundtrip_witness :
    ∃ c, Chain.from_adjacency_matrix matHT false true = .ok c ∧
      c.to_adjacency_matrix (List.range matHT.length) =
        .ok (matHT.map (fun row => row.map PVal.num)) :=
  from_to_adjacency_roundtrip matHT (by simp [matHT])
    (by intro row hrow; fin_cases hrow <;> rfl)
    (by intro row hrow; fin_cases hrow <;> intro x hx <;> fin_cases hx <;> norm_num)
    (by intro row hrow; fin_cases hrow <;> norm_num [matHT])

/-- The 3×3 permutation matrix whose first row's positive entry is off-diagonal:
row 0 reaches state 2 before state 1 is ever seen, so the chain's insertion
order of states is [0, 2, 1], not [0, 1, 2]. -/
def matPerm : List (List ℚ) := [[0, 0, 1], [1, 0, 0], [0, 1, 0]]

/-- The chain `from_adjacency_matrix(matPerm, normalise=False)` builds. -/
def chainPerm : Chain ℕ :=
  ⟨[0, 2, 1], [(0, [(2, PVal.num 1)]), (2, [(1, PVal.num 1)]), (1, [(0, PVal.num 1)])]⟩

/-- C4 counterexample: on `matPerm` the construction succeeds, but the chain's
natural (default) state order is [0, 2, 1], and `to_adjacency_matrix` under that
default order returns the matrix conjugated by this permutation — not `matPerm`
itself, so the round trip with the default state order is not the identity. -/
theorem from_to_adjacency_default_order_fails :
    Chain.from_adjacency_matrix matPerm false true = .ok chainPerm ∧
    chainPerm.states = [0, 2, 1] ∧
    chainPerm.to_adjacency_matrix chainPerm.states =
      .ok [[PVal.num 0, PVal.num 1, PVal.num 0],
           [PVal.num 0, PVal.num 0, PVal.num 1],
           [PVal.num 1, PVal.num 0, PVal.num 0]] ∧
    [[PVal.num 0, PVal.num 1, PVal.num 0],
     [PVal.num 0, PVal.num 0, PVal.num 1],
     [PVal.num 1, PVal.num 0, PVal.num 0]] ≠
      matPerm.map (fun row => row.map PVal.num) := by
  refine ⟨?_, rfl, ?_, ?_⟩
  · norm_num [Chain.from_adjacency_matrix, validateMatrix, matPerm, matrixEdges,
      rowEdges, addEdges, Chain.add_transition, Chain.add_state, alistSet,
      alistGet, List.foldl, chainPerm, Chain.empty]
  · norm_num [Chain.to_adjacency_matrix, toAdjRow, chainPerm, alistGet,
      buildRowAux, state_index, stateIndexAux, List.mapM.loop, exceptOk_bind,
      List.set, List.replicate]
  · intro h
    have := congrArg (fun l => l.get? 0) h
    simp [matPerm] at this

/-- The traversal `for u in states: for v in successors(u): transition_mass(u, v)`
(phase 1 of `Chain.merge`, and the shape of phase 2's reads of `chain2`):
`KeyError` if a listed state has no `_trans` entry. -/
def edgeListAux (c : Chain α) : List α → Except PyErr (List (α × α × PVal))
  | [] => .ok []
  | u :: rest =>
    match alistGet c.trans u with
    | Option.none => .error .keyError
    | some nbrs =>
      (edgeListAux c rest).map (fun es => nbrs.map (fun f => (u, f.1, f.2)) ++ es)

def edgeListE (c : Chain α) : Except PyErr (List (α × α × PVal)) :=
  edgeListAux c c.states

/-- The same edge list read off the `_trans` structure directly. -/
def edgesOf : List (α × List (α × PVal)) → List (α × α × PVal)
  | [] => []
  | e :: t => e.2.map (fun f => (e.1, f.1, f.2)) ++ edgesOf t

theorem edgeListAux_eq (c : Chain α) (l : List (α × List (α × PVal)))
    (hget : ∀ e ∈ l, alistGet c.trans e.1 = some e.2) :
    edgeListAux c (l.map Prod.fst) = .ok (edgesOf l) := by
  induction l with
  | nil => rfl
  | cons e t ih =>
    obtain ⟨u, nbrs⟩ := e
    rw [List.map_cons, edgeListAux, hget (u, nbrs) (List.mem_cons_self _ _),
      ih (fun f hf => hget f (List.mem_cons_of_mem _ hf)), edgesOf]
    rfl

theorem edgeListE_eq_of_wf (c : Chain α) (hw : c.WF) :
    edgeListE c = .ok (edgesOf c.trans) := by
  have hnd : (c.trans.map Prod.fst).Nodup := by rw [hw.keys_eq]; exact hw.states_nodup
  rw [edgeListE, ← hw.keys_eq]
  exact edgeListAux_eq c c.trans
    (fun e he => by obtain ⟨u, nbrs⟩ := e; exact alistGet_of_mem_nodup _ hnd _ _ he)

theorem lastEdgeP_block_ne (u0 : α) (nbrs : List (α × PVal)) (u v : α) (h : u ≠ u0) :
    lastEdgeP (nbrs.map (fun f => (u0, f.1, f.2))) u v = Option.none := by
  induction nbrs with
  | nil => rfl
  | cons f rest ih =>
    rw [List.map_cons, lastEdgeP, ih]
    simp only
    have h2 : ¬(u0 = u ∧ f.1 = v) := fun hc => h hc.1.symm
    rw [if_neg h2]

theorem lastEdgeP_block_eq (u0 : α) (nbrs : List (α × PVal))
    (hnd : (nbrs.map Prod.fst).Nodup) (v : α) :
    lastEdgeP (nbrs.map (fun f => (u0, f.1, f.2))) u0 v = alistGet nbrs v := by
  induction nbrs with
  | nil => rfl
  | cons f rest ih =>
    simp only [List.map_cons, List.nodup_cons] at hnd
    rw [List.map_cons, lastEdgeP, ih hnd.2]
    by_cases hv : f.1 = v
    · subst hv
      rw [alistGet_eq_none_of_not_mem _ _ hnd.1]
      simp [alistGet]
    · cases h : alistGet rest v with
      | some p => simp [alistGet, hv, h]
      | none => simp [alistGet, hv, h]

theorem lastEdgeP_edgesOf_not_mem (tr : List (α × List (α × PVal))) (u v : α)
    (h : u ∉ tr.map Prod.fst) :
    lastEdgeP (edgesOf tr) u v = Option.none := by
  induction tr with
  | nil => rfl
  | cons e t ih =>
    simp only [List.map_cons, List.mem_cons] at h
    push_neg at h
    rw [edgesOf, lastEdgeP_append, ih h.2, lastEdgeP_block_ne _ _ _ _ h.1]

/-- Under the dict invariants, the last write for `(u, v)` among a chain's edges
is exactly its stored mass. -/
theorem lastEdgeP_edgesOf (tr : List (α × List (α × PVal)))
    (hnd : (tr.map Prod.fst).Nodup)
    (hinner : ∀ e ∈ tr, (e.2.map Prod.fst).Nodup) (u v : α) :
    lastEdgeP (edgesOf tr) u v = (alistGet tr u).bind (fun nbrs => alistGet nbrs v) := by
  induction tr with
  | nil => rfl
  | cons e t ih =>
    obtain ⟨u0, nbrs0⟩ := e
    simp only [List.map_cons, List.nodup_cons] at hnd
    rw [edgesOf, lastEdgeP_append,
      ih hnd.2 (fun f hf => hinner f (List.mem_cons_of_mem _ hf))]
    by_cases hu : u = u0
    · subst hu
      rw [alistGet_eq_none_of_not_mem t u hnd.1]
      simp only [Option.none_bind]
      rw [lastEdgeP_block_eq _ _ (hinner (u, nbrs0) (List.mem_cons_self _ _)) v]
      simp [alistGet]
    · rw [lastEdgeP_block_ne _ _ _ _ hu]
      have h2 : ¬u0 = u := fun hc => hu hc.symm
      have : alistGet ((u0, nbrs0) :: t) u = alistGet t u := by
        simp [alistGet, h2]
      rw [this]
      cases h : (alistGet t u).bind (fun nbrs => alistGet nbrs v) <;> simp [h]

/-- The ordered pairs of an edge list. -/
def pairsOf (L : List (α × α × PVal)) : List (α × α) := L.map (fun e => (e.1, e.2.1))

theorem fst_mem_of_mem_pairsOf_edgesOf (tr : List (α × List (α × PVal))) (a b : α)
    (h : (a, b) ∈ pairsOf (edgesOf tr)) : a ∈ tr.map Prod.fst := by
  induction tr with
  | nil => simp [edgesOf, pairsOf] at h
  | cons e t ih =>
    rw [edgesOf, pairsOf, List.map_append] at h
    rcases List.mem_append.mp h with h | h
    · obtain ⟨f, hf, hfe⟩ := List.mem_map.mp h
      obtain ⟨f2, hf2, rfl⟩ := List.mem_map.mp hf
      have ha : e.1 = a := by simpa using congrArg Prod.fst hfe
      rw [List.map_cons]
      exact ha ▸ List.mem_cons_self _ _
    · simp [ih h]

theorem pairsOf_edgesOf_nodup (tr : List (α × List (α × PVal)))
    (hnd : (tr.map Prod.fst).Nodup)
    (hinner : ∀ e ∈ tr, (e.2.map Prod.fst).Nodup) :
    (pairsOf (edgesOf tr)).Nodup := by
  induction tr with
  | nil => exact List.nodup_nil
  | cons e t ih =>
    obtain ⟨u0, nbrs0⟩ := e
    simp only [List.map_cons, List.nodup_cons] at hnd
    rw [edgesOf, pairsOf, List.map_append]
    refine List.Nodup.append ?_ (ih hnd.2 (fun f hf => hinner f (List.mem_cons_of_mem _ hf))) ?_
    · have heq : (nbrs0.map (fun f => ((u0, f.1, f.2) : α × α × PVal))).map (fun e => (e.1, e.2.1))
          = (nbrs0.map Prod.fst).map (fun k => (u0, k)) := by
        simp [List.map_map]
      rw [heq]
      exact (hinner (u0, nbrs0) (List.mem_cons_self _ _)).map
        (fun a b hab => by simpa using congrArg Prod.snd hab)
    · intro q hq hq2
      obtain ⟨f, hf, rfl⟩ := List.mem_map.mp hq
      obtain ⟨f2, hf2, rfl⟩ := List.mem_map.mp hf
      have hmem : (u0, f2.1) ∈ pairsOf (edgesOf t) := by simpa [pairsOf] using hq2
      exact hnd.1 (fst_mem_of_mem_pairsOf_edgesOf t _ _ hmem)

theorem mem_edgesOf (tr : List (α × List (α × PVal))) (e : α × α × PVal) :
    e ∈ edgesOf tr ↔ ∃ g ∈ tr, ∃ f ∈ g.2, e = (g.1, f.1, f.2) := by
  induction tr with
  | nil => simp [edgesOf]
  | cons g t ih =>
    rw [edgesOf, List.mem_append, ih]
    constructor
    · rintro (h | ⟨g', hg', f, hf, rfl⟩)
      · obtain ⟨f, hf, rfl⟩ := List.mem_map.mp h
        exact ⟨g, List.mem_cons_self _ _, f, hf, rfl⟩
      · exact ⟨g', List.mem_cons_of_mem _ hg', f, hf, rfl⟩
    · rintro ⟨g', hg', f, hf, rfl⟩
      rcases List.mem_cons.mp hg' with rfl | hg'
      · exact Or.inl (List.mem_map.mpr ⟨f, hf, rfl⟩)
      · exact Or.inr ⟨g', hg', f, hf, rfl⟩

/-- Python `+=` on two stored `p` values: `TypeError` unless both are numbers. -/
def pAdd : PVal → PVal → Except PyErr PVal
  | .num a, .num b => .ok (.num (a + b))
  | _, _ => .error .typeError

/-- Total version of the sum of two stored weights (used only to state what the
merge produces; `pAdd` is what the code runs, and under numeric weights the two
agree). -/
def addPV : PVal → PVal → PVal
  | .num a, .num b => .num (a + b)
  | a, _ => a

/-- The body of `Chain.merge`'s second loop after the
`if u not in merged._trans: merged.add_state(u)` guard has run (`m1` is the
possibly-updated merged chain): for `merge_type="add"`, an overlapping edge gets
`merged._trans[u][v]["p"] += p2`, a fresh one `add_transition(u, v, p2)`; any
other merge_type overwrites via `add_transition`. -/
def mergeStepCore (mergeType : String) (m1 : Chain α) (e : α × α × PVal) :
    Except PyErr (Chain α) :=
  if mergeType = "add" then
    match alistGet m1.trans e.1 with
    | Option.none => .error .keyError
    | some nbrs =>
      match alistGet nbrs e.2.1 with
      | some p1 =>
        (pAdd p1 e.2.2).map
          (fun s => { m1 with trans := alistSet m1.trans e.1 (alistSet nbrs e.2.1 s) })
      | Option.none => .ok (m1.add_transition e.1 e.2.1 e.2.2)
  else .ok (m1.add_transition e.1 e.2.1 e.2.2)

/-- One iteration of `Chain.merge`'s second loop for the edge `(u, v, p2)` of
`chain2`, including the `add_state` guard. -/
def mergeStep (mergeType : String) (m : Chain α) (e : α × α × PVal) :
    Except PyErr (Chain α) :=
  mergeStepCore mergeType
    (if (alistGet m.trans e.1).isSome then m else m.add_state e.1) e

/-- `Chain.merge`'s second loop over all of `chain2`'s edges. -/
def mergeLoop (mergeType : String) : Chain α → List (α × α × PVal) → Except PyErr (Chain α)
  | m, [] => .ok m
  | m, e :: t =>
    match mergeStep mergeType m e with
    | .error err => .error err
    | .ok m2 => mergeLoop mergeType m2 t

/-- The trailing `normalise` block of `Chain.merge`: per state, sum the stored
weights (`TypeError` on non-numeric) and divide through when positive. -/
def mergeNormLoop : Chain α → List α → Except PyErr (Chain α)
  | m, [] => .ok m
  | m, u :: rest =>
    match alistGet m.trans u with
    | Option.none => .error .keyError
    | some nbrs =>
      match pySum (nbrs.map Prod.snd) with
      | .error err => .error err
      | .ok total =>
        if 0 < total then
          mergeNormLoop
            { m with trans := alistSet m.trans u (nbrs.map (fun f => (f.1, divP f.2 total))) }
            rest
        else mergeNormLoop m rest

/-- `Chain.merge(chain1, chain2, merge_type, normalise)`: phase 1 re-adds all of
`chain1`'s edges to a fresh chain, phase 2 folds `chain2`'s edges in via
`mergeStep`, then the optional normalisation pass runs over the result. -/
def Chain.merge (c1 c2 : Chain α) (mergeType : String := "add")
    (normalise : Bool := true) : Except PyErr (Chain α) := do
  let e1 ← edgeListE c1
  let e2 ← edgeListE c2
  let m2 ← mergeLoop mergeType (addEdges Chain.empty e1) e2
  if normalise then mergeNormLoop m2 m2.states else .ok m2

/-- Every stored mass is a number (entry-level `numericChain`, phrased through
lookups so it survives the merge fold). -/
def numericMass (c : Chain α) : Prop :=
  ∀ u v p, massOpt c u v = some p → ∃ q : ℚ, p = PVal.num q

/-- `_states` and `_trans` list exactly the same states (as membership). -/
def keysSt (c : Chain α) : Prop :=
  ∀ x, x ∈ c.states ↔ x ∈ c.trans.map Prod.fst

theorem numericMass_of_numericChain (c : Chain α) (hn : numericChain c) :
    numericMass c := by
  intro u v p hm
  unfold massOpt at hm
  cases hget : alistGet c.trans u with
  | none => rw [hget] at hm; cases hm
  | some nbrs =>
    rw [hget] at hm
    simp only [Option.some_bind] at hm
    exact hn (u, nbrs) (mem_of_alistGet _ _ _ hget) (v, p) (mem_of_alistGet _ _ _ hm)

theorem keysSt_of_WF (c : Chain α) (hw : c.WF) : keysSt c :=
  fun x => by rw [hw.keys_eq]

theorem keysSt_add_state (c : Chain α) (s : α) (h : keysSt c) : keysSt (c.add_state s) := by
  intro x
  unfold Chain.add_state
  by_cases hs : s ∈ c.states
  · simp only [if_pos hs]
    exact h x
  · simp only [if_neg hs, List.map_append]
    constructor
    · intro hx
      rcases List.mem_append.mp hx with hx | hx
      · exact List.mem_append_left _ ((h x).mp hx)
      · exact List.mem_append_right _ (by simpa using hx)
    · intro hx
      rcases List.mem_append.mp hx with hx | hx
      · exact List.mem_append_left _ ((h x).mpr hx)
      · exact List.mem_append_right _ (by simpa using hx)

theorem keysSt_add_transition (c : Chain α) (u v : α) (p : PVal) (h : keysSt c) :
    keysSt (c.add_transition u v p) := by
  have h1 : keysSt ((c.add_state u).add_state v) :=
    keysSt_add_state _ _ (keysSt_add_state _ _ h)
  intro x
  unfold Chain.add_transition
  simp only
  rw [alistSet_keys]
  have hu : u ∈ ((c.add_state u).add_state v).states := by
    rw [mem_states_add_state, mem_states_add_state]
    tauto
  have huk : u ∈ ((c.add_state u).add_state v).trans.map Prod.fst := (h1 u).mp hu
  rw [if_pos huk]
  exact h1 x

theorem numericMass_add_state (c : Chain α) (s : α) (h : numericMass c) :
    numericMass (c.add_state s) := by
  intro u v p hm
  rw [massOpt_add_state] at hm
  exact h u v p hm

theorem numericMass_add_transition (c : Chain α) (u0 v0 : α) (p0 : PVal)
    (hp : ∃ q : ℚ, p0 = PVal.num q) (h : numericMass c) :
    numericMass (c.add_transition u0 v0 p0) := by
  intro u v p hm
  rw [massOpt_add_transition] at hm
  by_cases hc : u = u0 ∧ v = v0
  · rw [if_pos hc] at hm
    cases hm
    exact hp
  · rw [if_neg hc] at hm
    exact h u v p hm

/-- Mass lookup after the in-place `+=` update of an existing edge. -/
theorem massOpt_bump (m : Chain α) (u : α) (nbrs : List (α × PVal))
    (hget : alistGet m.trans u = some nbrs) (v : α) (s : PVal) (x y : α) :
    massOpt { m with trans := alistSet m.trans u (alistSet nbrs v s) } x y =
      if x = u ∧ y = v then some s else massOpt m x y := by
  unfold massOpt
  by_cases hx : x = u
  · subst hx
    simp only [alistGet_alistSet_self, Option.some_bind]
    by_cases hy : y = v
    · subst hy
      simp [alistGet_alistSet_self]
    · rw [alistGet_alistSet_ne _ _ _ _ hy, hget]
      simp [hy]
  · simp only [alistGet_alistSet_ne _ _ _ _ hx]
    rw [if_neg (fun hc => hx hc.1)]

theorem lastEdgeP_eq_none_of_not_mem_pairs (L : List (α × α × PVal)) (u v : α)
    (h : (u, v) ∉ pairsOf L) : lastEdgeP L u v = Option.none := by
  induction L with
  | nil => rfl
  | cons e t ih =>
    simp only [pairsOf, List.map_cons, List.mem_cons] at h
    push_neg at h
    rw [lastEdgeP, ih (by simpa [pairsOf] using h.2)]
    simp only
    rw [if_neg]
    rintro ⟨h1, h2⟩
    exact h.1 (by rw [h1, h2])

/-- The merge's second loop on a duplicate-free edge list with numeric weights:
it succeeds, and each pair's final mass is the old mass bumped by (for an
overlap) or replaced with (for a fresh edge) the incoming weight. -/
theorem mergeLoop_add_spec (L : List (α × α × PVal)) :
    ∀ m : Chain α, (pairsOf L).Nodup →
      (∀ e ∈ L, ∃ q : ℚ, e.2.2 = PVal.num q) →
      numericMass m → keysSt m →
      ∃ m2, mergeLoop "add" m L = .ok m2 ∧ numericMass m2 ∧ keysSt m2 ∧
        ∀ u v, massOpt m2 u v =
          match lastEdgeP L u v, massOpt m u v with
          | some p2, some p1 => some (addPV p1 p2)
          | some p2, Option.none => some p2
          | Option.none, o => o := by
  induction L with
  | nil =>
    intro m _ _ hnm hks
    refine ⟨m, rfl, hnm, hks, fun u v => ?_⟩
    cases h : massOpt m u v <;> simp [lastEdgeP, h]
  | cons e t ih =>
    intro m hnd hnum hnm hks
    simp only [pairsOf, List.map_cons, List.nodup_cons] at hnd
    obtain ⟨q2, hq2⟩ := hnum e (List.mem_cons_self _ _)
    set m1 := if (alistGet m.trans e.1).isSome then m else m.add_state e.1 with hm1
    have hm1mass : ∀ x y, massOpt m1 x y = massOpt m x y := by
      intro x y
      rw [hm1]
      by_cases hh : (alistGet m.trans e.1).isSome
      · rw [if_pos hh]
      · rw [if_neg hh, massOpt_add_state]
    have hm1nm : numericMass m1 := fun u v p hp => hnm u v p ((hm1mass u v) ▸ hp)
    have hm1ks : keysSt m1 := by
      rw [hm1]
      by_cases hh : (alistGet m.trans e.1).isSome
      · rw [if_pos hh]; exact hks
      · rw [if_neg hh]; exact keysSt_add_state _ _ hks
    have hm1get : ∃ nbrs, alistGet m1.trans e.1 = some nbrs := by
      rw [hm1]
      by_cases hh : (alistGet m.trans e.1).isSome
      · rw [if_pos hh]
        exact Option.isSome_iff_exists.mp hh
      · rw [if_neg hh]
        have hkm : alistGet m.trans e.1 = Option.none := by
          cases hgg : alistGet m.trans e.1 with
          | none => rfl
          | some w => rw [hgg] at hh; simp at hh
        have hns : e.1 ∉ m.states := by
          intro hs
          have hmem := (hks e.1).mp hs
          have := alistGet_isSome_of_mem _ _ hmem
          rw [hkm] at this
          simp at this
        unfold Chain.add_state
        rw [if_neg hns]
        simp only
        rw [alistGet_append, hkm]
        exact ⟨[], by simp [alistGet]⟩
    obtain ⟨nbrs, hnbrs⟩ := hm1get
    have hnotpair : lastEdgeP t e.1 e.2.1 = Option.none :=
      lastEdgeP_eq_none_of_not_mem_pairs t _ _ (by simpa [pairsOf] using hnd.1)
    cases halist : alistGet nbrs e.2.1 with
    | some p1 =>
      obtain ⟨q1, hq1⟩ := hm1nm e.1 e.2.1 p1
        (by unfold massOpt; rw [hnbrs]; simpa using halist)
      subst hq1
      have hstep : mergeStep "add" m e = .ok
          { m1 with trans :=
              alistSet m1.trans e.1 (alistSet nbrs e.2.1 (PVal.num (q1 + q2))) } := by
        unfold mergeStep
        rw [← hm1]
        unfold mergeStepCore
        rw [if_pos rfl]
        simp only [hnbrs, halist, hq2]
        rfl
      have hmm : massOpt m e.1 e.2.1 = some (PVal.num q1) := by
        rw [← hm1mass]
        unfold massOpt
        rw [hnbrs]
        simpa using halist
      obtain ⟨mP, hmP⟩ : ∃ mP : Chain α, mP = Chain.mk m1.states
          (alistSet m1.trans e.1 (alistSet nbrs e.2.1 (PVal.num (q1 + q2)))) := ⟨_, rfl⟩
      rw [← hmP] at hstep
      have hmPmass : ∀ x y, massOpt mP x y =
          if x = e.1 ∧ y = e.2.1 then some (PVal.num (q1 + q2)) else massOpt m x y := by
        intro x y
        rw [hmP, massOpt_bump m1 e.1 nbrs hnbrs]
        by_cases hc : x = e.1 ∧ y = e.2.1
        · rw [if_pos hc, if_pos hc]
        · rw [if_neg hc, if_neg hc, hm1mass]
      have hmPnm : numericMass mP := by
        intro u v p hp
        rw [hmPmass] at hp
        by_cases hc : u = e.1 ∧ v = e.2.1
        · rw [if_pos hc] at hp
          cases hp
          exact ⟨_, rfl⟩
        · rw [if_neg hc] at hp
          exact hnm _ _ _ hp
      have hmPks : keysSt mP := by
        intro x
        rw [hmP]
        show x ∈ m1.states ↔ x ∈ (alistSet m1.trans e.1 _).map Prod.fst
        rw [alistSet_keys, if_pos (alistGet_mem_keys _ _ _ hnbrs)]
        exact hm1ks x
      obtain ⟨m2, hloop, h2nm, h2ks, h2mass⟩ := ih mP
        (by simpa [pairsOf] using hnd.2)
        (fun f hf => hnum f (List.mem_cons_of_mem _ hf)) hmPnm hmPks
      refine ⟨m2, ?_, h2nm, h2ks, ?_⟩
      · rw [mergeLoop, hstep]
        exact hloop
      · intro u v
        rw [h2mass u v, hmPmass]
        by_cases hc : u = e.1 ∧ v = e.2.1
        · have hnp : lastEdgeP t u v = Option.none := by rw [hc.1, hc.2]; exact hnotpair
          have hmm2 : massOpt m u v = some (PVal.num q1) := by rw [hc.1, hc.2]; exact hmm
          have hcc : e.1 = u ∧ e.2.1 = v := ⟨hc.1.symm, hc.2.symm⟩
          rw [if_pos hc, lastEdgeP, hnp]
          simp only
          rw [if_pos hcc, hq2, hmm2]
          rfl
        · rw [if_neg hc, lastEdgeP]
          cases hlt : lastEdgeP t u v with
          | some p => simp
          | none =>
            simp only
            rw [if_neg (fun hcc => hc ⟨hcc.1.symm, hcc.2.symm⟩)]
    | none =>
      have hstep : mergeStep "add" m e = .ok (m1.add_transition e.1 e.2.1 e.2.2) := by
        unfold mergeStep
        rw [← hm1]
        unfold mergeStepCore
        rw [if_pos rfl]
        simp only [hnbrs, halist]
      have hmm : massOpt m e.1 e.2.1 = Option.none := by
        rw [← hm1mass]
        unfold massOpt
        rw [hnbrs]
        simpa using halist
      set mP := m1.add_transition e.1 e.2.1 e.2.2 with hmP
      have hmPmass : ∀ x y, massOpt mP x y =
          if x = e.1 ∧ y = e.2.1 then some e.2.2 else massOpt m x y := by
        intro x y
        rw [hmP, massOpt_add_transition]
        by_cases hc : x = e.1 ∧ y = e.2.1
        · rw [if_pos hc, if_pos hc]
        · rw [if_neg hc, if_neg hc, hm1mass]
      have hmPnm : numericMass mP :=
        numericMass_add_transition _ _ _ _ ⟨q2, hq2⟩ hm1nm
      have hmPks : keysSt mP := keysSt_add_transition _ _ _ _ hm1ks
      obtain ⟨m2, hloop, h2nm, h2ks, h2mass⟩ := ih mP
        (by simpa [pairsOf] using hnd.2)
        (fun f hf => hnum f (List.mem_cons_of_mem _ hf)) hmPnm hmPks
      refine ⟨m2, ?_, h2nm, h2ks, ?_⟩
      · rw [mergeLoop, hstep]
        exact hloop
      · intro u v
        rw [h2mass u v, hmPmass]
        by_cases hc : u = e.1 ∧ v = e.2.1
        · have hnp : lastEdgeP t u v = Option.none := by rw [hc.1, hc.2]; exact hnotpair
          have hmm2 : massOpt m u v = Option.none := by rw [hc.1, hc.2]; exact hmm
          have hcc : e.1 = u ∧ e.2.1 = v := ⟨hc.1.symm, hc.2.symm⟩
          rw [if_pos hc, lastEdgeP, hnp]
          simp only
          rw [if_pos hcc, hmm2]
        · rw [if_neg hc, lastEdgeP]
          cases hlt : lastEdgeP t u v with
          | some p => simp
          | none =>
            simp only
            rw [if_neg (fun hcc => hc ⟨hcc.1.symm, hcc.2.symm⟩)]

/-- C7: merging with `merge_type="add"` and `normalise=False` sums the weights
of edges present in both chains and keeps the weight of edges present in
exactly one chain, for well-formed chains with numeric weights. -/
theorem merge_add_weights (c1 c2 : Chain α) (h1 : c1.WF) (h2 : c2.WF)
    (hn1 : numericChain c1) (hn2 : numericChain c2) :
    ∃ m, Chain.merge c1 c2 "add" false = .ok m ∧
      ∀ u v,
        (∀ q1 q2, massOpt c1 u v = some (PVal.num q1) →
          massOpt c2 u v = some (PVal.num q2) →
          massOpt m u v = some (PVal.num (q1 + q2))) ∧
        (massOpt c2 u v = Option.none → massOpt m u v = massOpt c1 u v) ∧
        (massOpt c1 u v = Option.none → massOpt m u v = massOpt c2 u v) := by
  have hE1 := edgeListE_eq_of_wf c1 h1
  have hE2 := edgeListE_eq_of_wf c2 h2
  have hnd2 : (c2.trans.map Prod.fst).Nodup := by rw [h2.keys_eq]; exact h2.states_nodup
  have hnd1 : (c1.trans.map Prod.fst).Nodup := by rw [h1.keys_eq]; exact h1.states_nodup
  set m1 := addEdges Chain.empty (edgesOf c1.trans) with hm1def
  have hwfm1 : m1.WF := WF_addEdges _ _ WF_empty
  have hm1mass : ∀ u v, massOpt m1 u v = massOpt c1 u v := by
    intro u v
    rw [hm1def, massOpt_addEdges, lastEdgeP_edgesOf c1.trans hnd1 h1.inner_nodup]
    show (match massOpt c1 u v with
      | some p => some p
      | Option.none => massOpt (Chain.empty : Chain α) u v) = massOpt c1 u v
    cases h : massOpt c1 u v <;> simp [h, massOpt_empty]
  have hm1nm : numericMass m1 := by
    intro u v p hp
    rw [hm1mass] at hp
    exact numericMass_of_numericChain c1 hn1 u v p hp
  obtain ⟨m2, hloop, h2nm, h2ks, h2mass⟩ := mergeLoop_add_spec (edgesOf c2.trans) m1
    (pairsOf_edgesOf_nodup c2.trans hnd2 h2.inner_nodup)
    (by
      intro e he
      rw [mem_edgesOf] at he
      obtain ⟨g, hg, f, hf, rfl⟩ := he
      exact hn2 g hg f hf)
    hm1nm (keysSt_of_WF m1 hwfm1)
  have hmass2 : ∀ u v, lastEdgeP (edgesOf c2.trans) u v = massOpt c2 u v := by
    intro u v
    rw [lastEdgeP_edgesOf c2.trans hnd2 h2.inner_nodup]
    rfl
  refine ⟨m2, ?_, ?_⟩
  · unfold Chain.merge
    rw [hE1, exceptOk_bind, hE2, exceptOk_bind, ← hm1def, hloop, exceptOk_bind]
    rfl
  · intro u v
    have hm := h2mass u v
    rw [hmass2, hm1mass] at hm
    refine ⟨?_, ?_, ?_⟩
    · intro q1 q2 hc1 hc2
      rw [hm, hc1, hc2]
      rfl
    · intro hc2
      rw [hm, hc2]
    · intro hc1
      rw [hm, hc1]
      cases h : massOpt c2 u v with
      | some p =>
        obtain ⟨q, rfl⟩ := numericMass_of_numericChain c2 hn2 u v p h
        simp
      | none => simp

/-- Chain X with edges X→X (0.6) and X→Y (0.4). -/
def chainM1 : Chain String :=
  (Chain.empty.add_transition "X" "X" (PVal.num (3/5))).add_transition
    "X" "Y" (PVal.num (2/5))

/-- Chain with edges X→Y (0.5) and X→Z (0.5). -/
def chainM2 : Chain String :=
  (Chain.empty.add_transition "X" "Y" (PVal.num (1/2))).add_transition
    "X" "Z" (PVal.num (1/2))

/-- C7 witness: the merge theorem instantiated at two concrete chains that
overlap on the edge (X, Y). -/
theorem merge_add_weights_witness :
    ∃ m, Chain.merge chainM1 chainM2 "add" false = .ok m ∧
      ∀ u v,
        (∀ q1 q2, massOpt chainM1 u v = some (PVal.num q1) →
          massOpt chainM2 u v = some (PVal.num q2) →
          massOpt m u v = some (PVal.num (q1 + q2))) ∧
        (massOpt chainM2 u v = Option.none → massOpt m u v = massOpt chainM1 u v) ∧
        (massOpt chainM1 u v = Option.none → massOpt m u v = massOpt chainM2 u v) :=
  merge_add_weights chainM1 chainM2
    ⟨by decide, by decide, by decide, by decide⟩
    ⟨by decide, by decide, by decide, by decide⟩
    (by decide) (by decide)

/-- One directed edge of the chain, as the graph-traversal code sees it:
`v ∈ chain.successors(u)`. -/
def stepRel (c : Chain α) (u v : α) : Prop :=
  ∃ nbrs, alistGet c.trans u = some nbrs ∧ v ∈ nbrs.map Prod.fst

/-- `v` lies on some directed path from `u` (the mathematical reachability that
`reachability.reachable` computes). -/
def Reaches (c : Chain α) : α → α → Prop := Relation.ReflTransGen (stepRel c)

/-- The states that have a `_trans` entry, as a finite set. -/
def keysF (c : Chain α) : Finset α := (c.trans.map Prod.fst).toFinset

/-- The loop of `reachability.reachable`: an explicit stack and a visited set;
visited states are skipped, fresh states are marked visited and their
successors pushed (`successors` raises `KeyError` on a state with no `_trans`
entry).  Python pops from the stack's tail; here the head is the top, which
changes only the visiting order, not the resulting set. -/
def reachableAux (c : Chain α) : List α → Finset α → Except PyErr (Finset α)
  | [], visited => .ok visited
  | u :: stack, visited =>
    if h : u ∈ visited then reachableAux c stack visited
    else
      match h2 : alistGet c.trans u with
      | Option.none => .error .keyError
      | some nbrs => reachableAux c (nbrs.map Prod.fst ++ stack) (insert u visited)
termination_by stack visited => ((keysF c \ visited).card, stack.length)
decreasing_by
  · exact Prod.Lex.right _ (Nat.lt_succ_self _)
  · apply Prod.Lex.left
    apply Finset.card_lt_card
    have hu : u ∈ keysF c := List.mem_toFinset.mpr (alistGet_mem_keys _ _ _ h2)
    rw [Finset.ssubset_iff_of_subset
      (Finset.sdiff_subset_sdiff (Finset.Subset.refl _) (Finset.subset_insert _ _))]
    exact ⟨u, Finset.mem_sdiff.mpr ⟨hu, h⟩, by simp⟩

/-- `reachability.reachable(chain, source)`. -/
def reachable (c : Chain α) (source : α) : Except PyErr (Finset α) :=
  reachableAux c [source] ∅

theorem reachableAux_spec (c : Chain α)
    (hclosed : ∀ u v, stepRel c u v → (alistGet c.trans v).isSome)
    (stack : List α) (visited : Finset α) :
    (∀ x ∈ stack, (alistGet c.trans x).isSome) →
    (∀ x ∈ visited, ∀ y, stepRel c x y → y ∈ visited ∨ y ∈ stack) →
    ∃ R, reachableAux c stack visited = .ok R ∧
      visited ⊆ R ∧ (∀ x ∈ stack, x ∈ R) ∧
      (∀ x ∈ R, x ∈ visited ∨ ∃ s ∈ stack, Reaches c s x) ∧
      (∀ x ∈ R, ∀ y, stepRel c x y → y ∈ R) := by
  induction stack, visited using reachableAux.induct c with
  | case1 visited =>
    intro _ hinv
    refine ⟨visited, by rw [reachableAux], Finset.Subset.refl _, by simp,
      fun x hx => Or.inl hx, ?_⟩
    intro x hx y hstep
    rcases hinv x hx y hstep with h | h
    · exact h
    · simp at h
  | case2 u stack visited h ih =>
    intro hstack hinv
    have hinv2 : ∀ x ∈ visited, ∀ y, stepRel c x y → y ∈ visited ∨ y ∈ stack := by
      intro x hx y hstep
      rcases hinv x hx y hstep with hy | hy
      · exact Or.inl hy
      · rcases List.mem_cons.mp hy with rfl | hy
        · exact Or.inl h
        · exact Or.inr hy
    obtain ⟨R, hR, hvis, hstk, hsound, hcl⟩ :=
      ih (fun x hx => hstack x (List.mem_cons_of_mem _ hx)) hinv2
    refine ⟨R, ?_, hvis, ?_, ?_, hcl⟩
    · rw [reachableAux, dif_pos h]
      exact hR
    · intro x hx
      rcases List.mem_cons.mp hx with rfl | hx
      · exact hvis h
      · exact hstk x hx
    · intro x hx
      rcases hsound x hx with hy | ⟨s, hs, hr⟩
      · exact Or.inl hy
      · exact Or.inr ⟨s, List.mem_cons_of_mem _ hs, hr⟩
  | case3 u stack visited h h2 =>
    intro hstack _
    have := hstack u (List.mem_cons_self _ _)
    rw [h2] at this
    simp at this
  | case4 u stack visited h nbrs h2 ih =>
    intro hstack hinv
    have hstep_u : ∀ y ∈ nbrs.map Prod.fst, stepRel c u y :=
      fun y hy => ⟨nbrs, h2, hy⟩
    have hstack2 : ∀ x ∈ nbrs.map Prod.fst ++ stack, (alistGet c.trans x).isSome := by
      intro x hx
      rcases List.mem_append.mp hx with hx | hx
      · exact hclosed u x (hstep_u x hx)
      · exact hstack x (List.mem_cons_of_mem _ hx)
    have hinv2 : ∀ x ∈ insert u visited, ∀ y, stepRel c x y →
        y ∈ insert u visited ∨ y ∈ nbrs.map Prod.fst ++ stack := by
      intro x hx y hstep
      rcases Finset.mem_insert.mp hx with rfl | hx
      · obtain ⟨nbrs', h2', hy⟩ := hstep
        rw [h2] at h2'
        cases h2'
        exact Or.inr (List.mem_append_left _ hy)
      · rcases hinv x hx y hstep with hy | hy
        · exact Or.inl (Finset.mem_insert_of_mem hy)
        · rcases List.mem_cons.mp hy with rfl | hy
          · exact Or.inl (Finset.mem_insert_self _ _)
          · exact Or.inr (List.mem_append_right _ hy)
    obtain ⟨R, hR, hvis, hstk, hsound, hcl⟩ := ih hstack2 hinv2
    refine ⟨R, ?_, ?_, ?_, ?_, hcl⟩
    · rw [reachableAux, dif_neg h]
      split
      next heq =>
        rw [h2] at heq
        cases heq
      next nbrs' heq =>
        rw [h2] at heq
        cases heq
        exact hR
    · exact fun x hx => hvis (Finset.mem_insert_of_mem hx)
    · intro x hx
      rcases List.mem_cons.mp hx with rfl | hx
      · exact hvis (Finset.mem_insert_self _ _)
      · exact hstk x (List.mem_append_right _ hx)
    · intro x hx
      rcases hsound x hx with hy | ⟨s, hs, hr⟩
      · rcases Finset.mem_insert.mp hy with rfl | hy
        · exact Or.inr ⟨x, List.mem_cons_self _ _, Relation.ReflTransGen.refl⟩
        · exact Or.inl hy
      · rcases List.mem_append.mp hs with hs | hs
        · exact Or.inr ⟨u, List.mem_cons_self _ _,
            Relation.ReflTransGen.head (hstep_u s hs) hr⟩
        · exact Or.inr ⟨s, List.mem_cons_of_mem _ hs, hr⟩

/-- For a well-formed chain, `reachable` on a known state computes exactly the
set of states reachable along directed paths. -/
theorem reachable_spec (c : Chain α) (hw : c.WF) (s : α) (hs : s ∈ c.states) :
    ∃ R, reachable c s = .ok R ∧ ∀ x, x ∈ R ↔ Reaches c s x := by
  have hclosed : ∀ u v, stepRel c u v → (alistGet c.trans v).isSome := by
    intro u v ⟨nbrs, hget, hv⟩
    obtain ⟨f, hf, rfl⟩ := List.mem_map.mp hv
    have := hw.targets_mem (u, nbrs) (mem_of_alistGet _ _ _ hget) f hf
    apply alistGet_isSome_of_mem
    rw [hw.keys_eq]
    exact this
  have hsome : (alistGet c.trans s).isSome := by
    apply alistGet_isSome_of_mem
    rw [hw.keys_eq]
    exact hs
  obtain ⟨R, hR, _, hstk, hsound, hcl⟩ := reachableAux_spec c hclosed [s] ∅
    (by simpa using hsome) (by simp)
  refine ⟨R, hR, fun x => ⟨?_, ?_⟩⟩
  · intro hx
    rcases hsound x hx with hy | ⟨s', hs', hr⟩
    · simp at hy
    · simp only [List.mem_singleton] at hs'
      subst hs'
      exact hr
  · intro hr
    induction hr with
    | refl => exact hstk s (List.mem_singleton_self _)
    | tail hab hbc ih => exact hcl _ ih _ hbc

/-- `reachability.communicates(chain, u, v)`: Python's short-circuiting
`v in reachable(chain, u) and u in reachable(chain, v)`. -/
def communicates (c : Chain α) (u v : α) : Except PyErr Bool := do
  let r1 ← reachable c u
  if v ∈ r1 then do
    let r2 ← reachable c v
    .ok (decide (u ∈ r2))
  else .ok false

/-- Mutual reachability (what `communicates` decides). -/
def Comm (c : Chain α) (u v : α) : Prop := Reaches c u v ∧ Reaches c v u

theorem Comm.refl' (c : Chain α) (u : α) : Comm c u u :=
  ⟨Relation.ReflTransGen.refl, Relation.ReflTransGen.refl⟩

theorem Comm.symm' (c : Chain α) {u v : α} (h : Comm c u v) : Comm c v u :=
  ⟨h.2, h.1⟩

theorem Comm.trans' (c : Chain α) {u v w : α} (h1 : Comm c u v) (h2 : Comm c v w) :
    Comm c u w :=
  ⟨Relation.ReflTransGen.trans h1.1 h2.1, Relation.ReflTransGen.trans h2.2 h1.2⟩

theorem communicates_spec (c : Chain α) (hw : c.WF) (u v : α)
    (hu : u ∈ c.states) (hv : v ∈ c.states) :
    ∃ b, communicates c u v = .ok b ∧ (b = true ↔ Comm c u v) := by
  obtain ⟨r1, hr1, hr1iff⟩ := reachable_spec c hw u hu
  by_cases hvm : v ∈ r1
  · obtain ⟨r2, hr2, hr2iff⟩ := reachable_spec c hw v hv
    refine ⟨decide (u ∈ r2), ?_, ?_⟩
    · rw [communicates, hr1, exceptOk_bind, if_pos hvm, hr2, exceptOk_bind]
    · rw [decide_eq_true_iff, hr2iff]
      exact ⟨fun h => ⟨(hr1iff v).mp hvm, h⟩, fun h => h.2⟩
  · refine ⟨false, ?_, ?_⟩
    · rw [communicates, hr1, exceptOk_bind, if_neg hvm]
    · refine iff_of_false (by simp) ?_
      intro hcomm
      exact hvm ((hr1iff v).mpr hcomm.1)

/-- The set comprehension `{t for t in chain.states if communicates(chain, s, t)}`
of `communication_classes`, as the list of kept elements. -/
def ccFilter (c : Chain α) (s : α) : List α → Except PyErr (List α)
  | [] => .ok []
  | t :: rest => do
      let b ← communicates c s t
      let r ← ccFilter c s rest
      .ok (if b then t :: r else r)

/-- The loop of `reachability.communication_classes`: states already seen are
skipped, otherwise the communicating class of `s` is collected, recorded, and
merged into `seen`. -/
def ccAux (c : Chain α) : List α → Finset α → Except PyErr (List (Finset α))
  | [], _ => .ok []
  | s :: rest, seen =>
    if s ∈ seen then ccAux c rest seen
    else do
      let cls ← ccFilter c s c.states
      let more ← ccAux c rest (seen ∪ cls.toFinset)
      .ok (cls.toFinset :: more)

/-- `reachability.communication_classes(chain)`. -/
def communication_classes (c : Chain α) : Except PyErr (List (Finset α)) :=
  ccAux c c.states ∅

theorem ccFilter_spec (c : Chain α) (hw : c.WF) (s : α) (hs : s ∈ c.states)
    (L : List α) (hL : ∀ t ∈ L, t ∈ c.states) :
    ∃ l, ccFilter c s L = .ok l ∧ ∀ t, t ∈ l ↔ t ∈ L ∧ Comm c s t := by
  induction L with
  | nil => exact ⟨[], rfl, by simp⟩
  | cons t rest ih =>
    obtain ⟨b, hb, hbiff⟩ := communicates_spec c hw s t hs (hL t (List.mem_cons_self _ _))
    obtain ⟨l, hl, hliff⟩ := ih (fun x hx => hL x (List.mem_cons_of_mem _ hx))
    refine ⟨if b then t :: l else l, ?_, ?_⟩
    · rw [ccFilter, hb, exceptOk_bind, hl, exceptOk_bind]
    · intro x
      by_cases hbb : b = true
      · rw [hbb, if_pos rfl, List.mem_cons, List.mem_cons]
        constructor
        · rintro (rfl | hx)
          · exact ⟨Or.inl rfl, hbiff.mp hbb⟩
          · obtain ⟨hx1, hx2⟩ := (hliff x).mp hx
            exact ⟨Or.inr hx1, hx2⟩
        · rintro ⟨rfl | hx1, hx2⟩
          · exact Or.inl rfl
          · exact Or.inr ((hliff x).mpr ⟨hx1, hx2⟩)
      · have hbf : b = false := by simpa using hbb
        rw [hbf, if_neg (by simp), List.mem_cons]
        rw [hliff x]
        constructor
        · rintro ⟨hx1, hx2⟩
          exact ⟨Or.inr hx1, hx2⟩
        · rintro ⟨rfl | hx1, hx2⟩
          · exact absurd (hbiff.mpr hx2) (by simp [hbf])
          · exact ⟨hx1, hx2⟩

theorem ccAux_spec (c : Chain α) (hw : c.WF) (L : List α) :
    ∀ seen : Finset α, (∀ x ∈ L, x ∈ c.states) →
    (∀ x ∈ seen, ∀ y ∈ c.states, Comm c x y → y ∈ seen) →
    ∃ classes, ccAux c L seen = .ok classes ∧
      (∀ A ∈ classes, ∃ r ∈ c.states,
        (∀ t, t ∈ A ↔ t ∈ c.states ∧ Comm c r t) ∧ Disjoint A seen) ∧
      classes.Pairwise Disjoint ∧
      (∀ x ∈ L, x ∈ seen ∨ ∃ A ∈ classes, x ∈ A) := by
  induction L with
  | nil =>
    intro seen _ _
    exact ⟨[], rfl, by simp, List.Pairwise.nil, by simp⟩
  | cons s rest ih =>
    intro seen hL hsat
    by_cases hseen : s ∈ seen
    · obtain ⟨classes, hcc, hchar, hpw, hcov⟩ :=
        ih seen (fun x hx => hL x (List.mem_cons_of_mem _ hx)) hsat
      refine ⟨classes, ?_, hchar, hpw, ?_⟩
      · rw [ccAux, if_pos hseen]
        exact hcc
      · intro x hx
        rcases List.mem_cons.mp hx with rfl | hx
        · exact Or.inl hseen
        · exact hcov x hx
    · have hss : s ∈ c.states := hL s (List.mem_cons_self _ _)
      obtain ⟨cls, hcls, hclsiff⟩ := ccFilter_spec c hw s hss c.states (fun t ht => ht)
      have hclsF : ∀ t, t ∈ cls.toFinset ↔ t ∈ c.states ∧ Comm c s t := by
        intro t
        rw [List.mem_toFinset, hclsiff]
      have hdisj : Disjoint cls.toFinset seen := by
        rw [Finset.disjoint_left]
        intro t ht hts
        obtain ⟨ht1, ht2⟩ := (hclsF t).mp ht
        exact hseen (hsat t hts s hss (Comm.symm' c ht2))
      have hsat2 : ∀ x ∈ seen ∪ cls.toFinset, ∀ y ∈ c.states, Comm c x y →
          y ∈ seen ∪ cls.toFinset := by
        intro x hx y hy hxy
        rcases Finset.mem_union.mp hx with hx | hx
        · exact Finset.mem_union_left _ (hsat x hx y hy hxy)
        · obtain ⟨hx1, hx2⟩ := (hclsF x).mp hx
          exact Finset.mem_union_right _
            ((hclsF y).mpr ⟨hy, Comm.trans' c hx2 hxy⟩)
      obtain ⟨more, hmore, hchar, hpw, hcov⟩ :=
        ih (seen ∪ cls.toFinset) (fun x hx => hL x (List.mem_cons_of_mem _ hx)) hsat2
      refine ⟨cls.toFinset :: more, ?_, ?_, ?_, ?_⟩
      · rw [ccAux, if_neg hseen, hcls, exceptOk_bind, hmore, exceptOk_bind]
      · intro A hA
        rcases List.mem_cons.mp hA with rfl | hA
        · exact ⟨s, hss, hclsF, hdisj⟩
        · obtain ⟨r, hr, hriff, hrdisj⟩ := hchar A hA
          exact ⟨r, hr, hriff, Finset.disjoint_of_subset_right
            (Finset.subset_union_left) hrdisj⟩
      · refine List.Pairwise.cons ?_ hpw
        intro A hA
        obtain ⟨r, hr, hriff, hrdisj⟩ := hchar A hA
        exact (Finset.disjoint_of_subset_right Finset.subset_union_right hrdisj).symm
      · intro x hx
        rcases List.mem_cons.mp hx with rfl | hx
        · exact Or.inr ⟨cls.toFinset, List.mem_cons_self _ _,
            (hclsF x).mpr ⟨hss, Comm.refl' c x⟩⟩
        · rcases hcov x hx with hy | ⟨A, hA, hxa⟩
          · rcases Finset.mem_union.mp hy with hy | hy
            · exact Or.inl hy
            · exact Or.inr ⟨cls.toFinset, List.mem_cons_self _ _, hy⟩
          · exact Or.inr ⟨A, List.mem_cons_of_mem _ hA, hxa⟩

theorem mem_foldr_union (l : List (Finset α)) (x : α) :
    x ∈ l.foldr (· ∪ ·) ∅ ↔ ∃ A ∈ l, x ∈ A := by
  induction l with
  | nil => simp
  | cons A t ih => simp [ih]

/-- C8: on every well-formed chain, `communication_classes` succeeds and returns
pairwise-disjoint state sets whose union is exactly the chain's state set. -/
theorem communication_classes_partition (c : Chain α) (hw : c.WF) :
    ∃ classes, communication_classes c = .ok classes ∧
      classes.Pairwise Disjoint ∧
      classes.foldr (· ∪ ·) ∅ = c.states.toFinset := by
  obtain ⟨classes, hcc, hchar, hpw, hcov⟩ :=
    ccAux_spec c hw c.states ∅ (fun x hx => hx) (by simp)
  refine ⟨classes, hcc, hpw, ?_⟩
  ext x
  rw [mem_foldr_union, List.mem_toFinset]
  constructor
  · rintro ⟨A, hA, hxa⟩
    obtain ⟨r, _, hriff, -⟩ := hchar A hA
    exact ((hriff x).mp hxa).1
  · intro hx
    rcases hcov x hx with hy | hy
    · simp at hy
    · exact hy

/-- The two-state ping-pong chain A ⇄ B together with an isolated self-loop
state C (three states, two communication classes). -/
def chainCC : Chain String :=
  ((Chain.empty.add_transition "A" "B" (PVal.num 1)).add_transition
    "B" "A" (PVal.num 1)).add_transition "C" "C" (PVal.num 1)

/-- C8 witness: the partition theorem instantiated at the concrete chain
`chainCC`. -/
theorem communication_classes_partition_witness :
    ∃ classes, communication_classes chainCC = .ok classes ∧
      classes.Pairwise Disjoint ∧
      classes.foldr (· ∪ ·) ∅ = chainCC.states.toFinset :=
  communication_classes_partition chainCC
    ⟨by decide, by decide, by decide, by decide⟩

/-- C2 witness for the amended statement: at the concrete matrix of `chainAbs`,
row 0 (sum 1 ≠ 0) is normalised to sum 1, and row 1 (sum 0) is left unchanged. -/
theorem power_normalize_rows_witness :
    rowSum 2 (denseAdj chainAbs) 1 = 0 ∧
    powerNormalize 2 (denseAdj chainAbs) 1 1 = denseAdj chainAbs 1 1 ∧
    rowSum 2 (denseAdj chainAbs) 0 ≠ 0 ∧
    rowSum 2 (powerNormalize 2 (denseAdj chainAbs)) 0 = 1 := by
  have h0 : rowSum 2 (denseAdj chainAbs) 1 = 0 := by
    norm_num [rowSum, Finset.sum_range_succ, denseAdj, chainAbs, massOpt,
      alistGet, pvalToQ]
  have hne : rowSum 2 (denseAdj chainAbs) 0 ≠ 0 := by
    norm_num [rowSum, Finset.sum_range_succ, denseAdj, chainAbs, massOpt,
      alistGet, pvalToQ]
  exact ⟨h0, (power_normalize_rows 2 (denseAdj chainAbs) 1).1 h0 1, hne,
    (power_normalize_rows 2 (denseAdj chainAbs) 0).2 hne⟩

/-- `simulation.next_state(chain, current)`: `chain.successors(current)` raises
`KeyError` on a state with no `_trans` entry; an empty successor list raises
`ValueError`; otherwise `random.choices` sums the weights (`attr.get("p", 0)` —
the key is always present), raising `TypeError` on a non-numeric weight and
`ValueError` when the total is not positive, and else returns one of the
successors.  The random draw is modelled by the index `draw`, reduced modulo
the number of successors. -/
def next_state (c : Chain α) (current : α) (draw : ℕ) : Except PyErr α :=
  match alistGet c.trans current with
  | Option.none => .error .keyError
  | some [] => .error .valueError
  | some (f :: rest) =>
    match pySum ((f :: rest).map (fun e => e.2)) with
    | .error e => .error e
    | .ok total =>
      if total ≤ 0 then .error .valueError
      else .ok ((f :: rest).get ⟨draw % (f :: rest).length,
        Nat.mod_lt _ (Nat.succ_pos _)⟩).1

/-- The loop of `simulation.simulate`: `steps` iterations of
`current = next_state(chain, current); route.append(current)`; `draws k` is the
random draw consumed at iteration `k`. -/
def simulateAux (c : Chain α) (draws : ℕ → ℕ) : ℕ → α → ℕ → Except PyErr (List α)
  | 0, _, _ => .ok []
  | steps + 1, current, k =>
    match next_state c current (draws k) with
    | .error e => .error e
    | .ok nxt =>
      match simulateAux c draws steps nxt (k + 1) with
      | .error e => .error e
      | .ok route => .ok (nxt :: route)

/-- `simulation.simulate(chain, start, steps)`: an unknown `start` raises
`ValueError`; otherwise the route begins with `start` and one state is appended
per step. -/
def simulate (c : Chain α) (start : α) (steps : ℕ) (draws : ℕ → ℕ) :
    Except PyErr (List α) :=
  if start ∈ c.states then
    match simulateAux c draws steps start 0 with
    | .error e => .error e
    | .ok route => .ok (start :: route)
  else .error .valueError

theorem next_state_ok (c : Chain α) (u : α) (draw : ℕ) (nbrs : List (α × PVal))
    (h : alistGet c.trans u = some nbrs) (total : ℚ)
    (hsum : pySum (nbrs.map (fun e => e.2)) = .ok total) (hpos : 0 < total) :
    ∃ v, next_state c u draw = .ok v ∧ stepRel c u v := by
  cases nbrs with
  | nil =>
    have h0 : Except.ok (ε := PyErr) (0 : ℚ) = .ok total := hsum
    rw [← Except.ok.inj h0] at hpos
    exact absurd hpos (lt_irrefl 0)
  | cons f rest =>
    refine ⟨((f :: rest).get ⟨draw % (f :: rest).length,
      Nat.mod_lt _ (Nat.succ_pos _)⟩).1, ?_, ?_⟩
    · unfold next_state
      simp only [h, hsum]
      rw [if_neg (not_le.mpr hpos)]
    · exact ⟨f :: rest, h,
        List.mem_map_of_mem Prod.fst (List.get_mem _ _ _)⟩

theorem simulateAux_spec (c : Chain α) (draws : ℕ → ℕ) (start : α)
    (hpos : ∀ u, Reaches c start u → ∃ nbrs total,
      alistGet c.trans u = some nbrs ∧
      pySum (nbrs.map (fun e => e.2)) = .ok total ∧ 0 < total)
    (steps : ℕ) :
    ∀ current k, Reaches c start current →
      ∃ route, simulateAux c draws steps current k = .ok route ∧
        route.length = steps ∧
        List.Chain' (fun a b => c.has_transition a b = true) (current :: route) := by
  induction steps with
  | zero =>
    intro current k _
    exact ⟨[], rfl, rfl, List.chain'_singleton _⟩
  | succ steps ih =>
    intro current k hreach
    obtain ⟨nbrs, total, h, hsum, hpos2⟩ := hpos current hreach
    obtain ⟨v, hnext, hstep⟩ := next_state_ok c current (draws k) nbrs h total hsum hpos2
    have hreach2 : Reaches c start v := Relation.ReflTransGen.tail hreach hstep
    obtain ⟨route, hrec, hlen, hchain⟩ := ih v (k + 1) hreach2
    have htr : c.has_transition current v = true := by
      obtain ⟨nbrs2, h2, hv⟩ := hstep
      unfold Chain.has_transition
      simp only [h2]
      exact alistGet_isSome_of_mem nbrs2 v hv
    refine ⟨v :: route, ?_, by simp [hlen], List.Chain'.cons htr hchain⟩
    simp only [simulateAux, hnext, hrec]

/-- C9 (amended): whenever every state reachable from `start` has a successor
list whose weights sum (via Python's `sum`) to a positive number, `simulate`
returns, for every draw sequence, a route of `steps + 1` states starting at
`start` whose consecutive pairs are existing transitions; an unknown `start`
raises `ValueError`.  (The original claim asked only that reachable states have
at least one outgoing transition, which is not enough: a zero or negative
weight total makes `random.choices` raise `ValueError`.) -/
theorem simulate_spec (c : Chain α) (start : α) (steps : ℕ) (draws : ℕ → ℕ) :
    ((∀ u, Reaches c start u → ∃ nbrs total,
        alistGet c.trans u = some nbrs ∧
        pySum (nbrs.map (fun e => e.2)) = .ok total ∧ 0 < total) →
      start ∈ c.states →
      ∃ route, simulate c start steps draws = .ok route ∧
        route.length = steps + 1 ∧ route.head? = some start ∧
        route.Chain' (fun a b => c.has_transition a b = true)) ∧
    (start ∉ c.states → simulate c start steps draws = .error .valueError) := by
  constructor
  · intro hpos hstart
    obtain ⟨route, hrec, hlen, hchain⟩ :=
      simulateAux_spec c draws start hpos steps start 0 Relation.ReflTransGen.refl
    refine ⟨start :: route, ?_, by simp [hlen], rfl, hchain⟩
    rw [simulate, if_pos hstart]
    simp only [hrec]
  · intro hstart
    rw [simulate, if_neg hstart]

/-- C9 witness: on the ping-pong chain `chainCC`, a 2-step simulation from
`"A"` succeeds with a route of 3 states. -/
theorem simulate_spec_witness :
    ∃ route, simulate chainCC "A" 2 (fun _ => 0) = .ok route ∧
      route.length = 2 + 1 ∧ route.head? = some "A" ∧
      route.Chain' (fun a b => chainCC.has_transition a b = true) := by
  apply (simulate_spec chainCC "A" 2 (fun _ => 0)).1 ?_ (by decide)
  have hA : ∀ y, stepRel chainCC "A" y → y = "B" := by
    rintro y ⟨nbrs, h, hy⟩
    rw [show alistGet chainCC.trans "A" = some [("B", PVal.num 1)] from by decide] at h
    injection h with h
    subst h
    simpa using hy
  have hB : ∀ y, stepRel chainCC "B" y → y = "A" := by
    rintro y ⟨nbrs, h, hy⟩
    rw [show alistGet chainCC.trans "B" = some [("A", PVal.num 1)] from by decide] at h
    injection h with h
    subst h
    simpa using hy
  intro u hu
  have hmem : u = "A" ∨ u = "B" := by
    induction hu with
    | refl => exact Or.inl rfl
    | tail hab hbc ih =>
      rcases ih with rfl | rfl
      · exact Or.inr (hA _ hbc)
      · exact Or.inl (hB _ hbc)
  rcases hmem with rfl | rfl
  · exact ⟨[("B", PVal.num 1)], 1, by decide, by norm_num [pySum, Except.map], by norm_num⟩
  · exact ⟨[("A", PVal.num 1)], 1, by decide, by norm_num [pySum, Except.map], by norm_num⟩

/-- A one-state chain whose only transition carries weight 0: every state has
an outgoing transition, yet the weight total out of state 0 is 0. -/
def chainZero : Chain ℕ := Chain.empty.add_transition 0 0 (PVal.num 0)

/-- C9 counterexample: in `chainZero` every state has at least one outgoing
transition, yet `simulate(chain, 0, 1)` raises `ValueError`, because
`random.choices` rejects the non-positive weight total 0 — refuting the
original claim that outgoing transitions from every reachable state suffice. -/
theorem simulate_zero_weight_error :
    chainZero.has_state 0 = true ∧
    chainZero.has_transition 0 0 = true ∧
    simulate chainZero 0 1 (fun _ => 0) = .error .valueError := by
  refine ⟨by decide, by decide, ?_⟩
  have hg : alistGet chainZero.trans 0 = some [(0, PVal.num 0)] := by decide
  have hs : pySum ([((0 : ℕ), PVal.num 0)].map (fun e => e.2)) = .ok 0 := by
    norm_num [pySum, Except.map]
  have h1 : next_state chainZero 0 0 = .error .valueError := by
    unfold next_state
    simp only [hg, hs]
    rw [if_pos (le_refl (0 : ℚ))]
  have h2 : simulateAux chainZero (fun _ => 0) 1 0 0 = .error .valueError := by
    simp only [simulateAux, h1]
  rw [simulate, if_pos (by decide : (0 : ℕ) ∈ chainZero.states)]
  simp only [h2]

end Markovpy
